import Mathlib

/-!
Verification of the ASCII workflow visualizer (`ascii_workflow.py`).

The Python source is shallowly embedded: nodes, connections and the
workflow aggregate become Lean structures; the mutable layout phase and
the in-place canvas painting become explicit state passing.  Python
integers are `Int` (or `Nat` where the source can only produce
non-negative values), Python list indexing — which may raise or wrap
around for negative indices — is modelled by `Option`-valued access, and
a Python method that can raise an uncaught exception becomes an
`Option`-valued function (`none` = exception).
-/

namespace AsciiWorkflow

/-- Box drawing glyph set, mirroring one entry of the Python `BOX_STYLES`
table.  Glyphs are kept as `String`s because canvas cells hold Python
strings. -/
structure BoxStyle where
  top_left : String
  top_right : String
  bottom_left : String
  bottom_right : String
  horizontal : String
  vertical : String
  padding : Nat
deriving DecidableEq, Repr

/-- The `"process"` entry of `BOX_STYLES` (also the fallback style). -/
def processStyle : BoxStyle :=
  { top_left := "┌", top_right := "┐", bottom_left := "└", bottom_right := "┘",
    horizontal := "─", vertical := "│", padding := 1 }

/-- The Python `BOX_STYLES` lookup table. -/
def BOX_STYLES : List (String × BoxStyle) :=
  [ ("start",
      { top_left := "┌", top_right := "┐", bottom_left := "└", bottom_right := "┘",
        horizontal := "─", vertical := "│", padding := 1 }),
    ("process", processStyle),
    ("tool",
      { top_left := "╔", top_right := "╗", bottom_left := "╚", bottom_right := "╝",
        horizontal := "═", vertical := "║", padding := 1 }),
    ("decision",
      { top_left := "╭", top_right := "╮", bottom_left := "╰", bottom_right := "╯",
        horizontal := "─", vertical := "│", padding := 1 }),
    ("result",
      { top_left := "┏", top_right := "┓", bottom_left := "┗", bottom_right := "┛",
        horizontal := "━", vertical := "┃", padding := 1 }),
    ("special",
      { top_left := "╒", top_right := "╕", bottom_left := "╘", bottom_right := "╛",
        horizontal := "═", vertical := "│", padding := 1 }) ]

/-- `BOX_STYLES.get(node_type, BOX_STYLES["process"])`. -/
def boxStyleFor (t : String) : BoxStyle := (BOX_STYLES.lookup t).getD processStyle

/-- Connection glyph set, one entry of the Python `CONNECTIONS` table. -/
structure ConnStyle where
  vertical : String
  horizontal : String
  down_right : String
  down_left : String
  up_right : String
  up_left : String
  cross : String
deriving DecidableEq, Repr

/-- The `"normal"` entry of `CONNECTIONS` (also the fallback). -/
def connNormal : ConnStyle :=
  { vertical := "│", horizontal := "─", down_right := "┌", down_left := "┐",
    up_right := "└", up_left := "┘", cross := "┼" }

/-- The Python `CONNECTIONS` lookup table. -/
def CONNECTIONS : List (String × ConnStyle) :=
  [ ("normal", connNormal),
    ("thick",
      { vertical := "┃", horizontal := "━", down_right := "┏", down_left := "┓",
        up_right := "┗", up_left := "┛", cross := "╋" }),
    ("double",
      { vertical := "║", horizontal := "═", down_right := "╔", down_left := "╗",
        up_right := "╚", up_left := "╝", cross := "╬" }),
    ("dashed",
      { vertical := "┊", horizontal := "┄", down_right := "┌", down_left := "┐",
        up_right := "└", up_left := "┘", cross := "┼" }) ]

/-- The Python `ARROWS` lookup table (arrow glyphs are multi-character
strings for some styles, hence `String`). -/
def ARROWS : List (String × String) :=
  [ ("normal", "→"), ("bold", "⟶"), ("double", "⇒"),
    ("success", "✓→"), ("failure", "✗→"), ("conditional", "?→") ]

/-- A workflow node (`class Node`).  The fields `x`, `y`, `width`,
`height` are the mutable layout outputs; `Node.__init__` zeroes them. -/
structure Node where
  id : String
  label : String
  ntype : String
  icon : Option String
  description : Option String
  style : BoxStyle
  x : Int
  y : Int
  width : Nat
  height : Nat
deriving DecidableEq, Repr

/-- `Node.__init__`: resolve the style (custom style, else the type's
default, else `"process"`), zero the computed fields. -/
def mkNode (node_id label node_type : String) (icon description : Option String)
    (style : Option BoxStyle) : Node :=
  { id := node_id, label := label, ntype := node_type, icon := icon,
    description := description, style := style.getD (boxStyleFor node_type),
    x := 0, y := 0, width := 0, height := 0 }

/-- A connection (`class Connection`).  `path` is the mutable routing
output, empty until `_route_connections` runs. -/
structure Conn where
  source : String
  target : String
  ctype : String
  label : Option String
  style : ConnStyle
  arrow : String
  path : List (Int × Int)
deriving DecidableEq, Repr

/-- `Connection.__init__`. -/
def mkConnection (source target conn_type : String) (label : Option String) : Conn :=
  { source := source, target := target, ctype := conn_type, label := label,
    style := (CONNECTIONS.lookup conn_type).getD connNormal,
    arrow := (ARROWS.lookup conn_type).getD "→", path := [] }

/-- Accumulating scanner behind `pyWords`: `cur` holds the characters
of the word in progress, reversed. -/
def wordsAux (cur : List Char) : List Char → List String
  | [] => if cur = [] then [] else [String.mk cur.reverse]
  | c :: cs =>
    if c.isWhitespace then
      (if cur = [] then wordsAux [] cs else String.mk cur.reverse :: wordsAux [] cs)
    else wordsAux (c :: cur) cs

/-- Python `str.split()` with no argument: split on whitespace runs,
dropping empty pieces. -/
def pyWords (s : String) : List String := wordsAux [] s.toList

/-- Python `" ".join(l)`. -/
def pyJoin : List String → String
  | [] => ""
  | h :: t => t.foldl (fun acc w => acc ++ " " ++ w) h

/-- One iteration of the greedy wrapping loop in `Node.get_display_text`:
state is `(wrapped groups, current_line, current_length)`. -/
def wrapStep (maxLen : Nat) :
    List (List String) × List String × Nat → String → List (List String) × List String × Nat :=
  fun st word =>
    let acc := st.1
    let cur := st.2.1
    let clen := st.2.2
    if clen + word.length + (if 0 < clen then 1 else 0) ≤ maxLen then
      if 0 < clen then (acc, cur ++ [word], clen + word.length + 1)
      else (acc, cur ++ [word], clen + word.length)
    else (acc ++ [cur], [word], word.length)

/-- The wrapping loop of `Node.get_display_text`, returning the groups
of words that form each wrapped line (the source joins each group with
`" ".join` the moment it is flushed; we join at the end, producing the
same strings). -/
def wrapGroups (maxLen : Nat) (ws : List String) : List (List String) :=
  let st := ws.foldl (wrapStep maxLen) ([], [], 0)
  if st.2.1 ≠ [] then st.1 ++ [st.2.1] else st.1

/-- The `wrapped_desc` list of `Node.get_display_text`. -/
def wrappedDesc (maxLen : Nat) (ws : List String) : List String :=
  (wrapGroups maxLen ws).map pyJoin

/-- The first display line: `icon + " " + label` when a (truthy) icon is
present, else `label`. -/
def firstLine (n : Node) : String :=
  match n.icon with
  | some ic => if ic ≠ "" then ic ++ " " ++ n.label else n.label
  | none => n.label

/-- `Node.get_display_text`. -/
def getDisplayText (n : Node) : List String :=
  let line0 := firstLine n
  match n.description with
  | some d =>
      if d ≠ "" then line0 :: wrappedDesc (max line0.length 30) (pyWords d)
      else [line0]
  | none => [line0]

/-- `Node.calculate_dimensions`: width is the longest display line plus
padding on both sides, height is the line count plus padding on both
sides. -/
def calcDims (n : Node) : Node :=
  let lines := getDisplayText n
  let padding := n.style.padding
  { n with
    width := (lines.map String.length).foldl max 0 + padding * 2,
    height := lines.length + padding * 2 }

/-- The workflow aggregate (`class Workflow`).  `nodes` is an insertion
ordered association list mirroring the Python `dict`; `canvas` is the
mutable grid of cells (Python one-character strings, or a multi-character
arrow glyph). -/
structure Workflow where
  title : String
  nodes : List (String × Node)
  connections : List Conn
  canvas : List (List String)
  canvas_width : Int
  canvas_height : Int
deriving DecidableEq, Repr

/-- `Workflow.__init__`. -/
def mkWorkflow (title : String) : Workflow :=
  { title := title, nodes := [], connections := [], canvas := [],
    canvas_width := 0, canvas_height := 0 }

/-- Python `dict` assignment `d[k] = v`: overwrite in place when the key
exists (keeping its position), append otherwise. -/
def dictSet (m : List (String × Node)) (k : String) (v : Node) : List (String × Node) :=
  if m.any (fun p => p.1 == k) then m.map (fun p => if p.1 = k then (k, v) else p)
  else m ++ [(k, v)]

/-- `Workflow.add_node`. -/
def addNode (w : Workflow) (n : Node) : Workflow :=
  { w with nodes := dictSet w.nodes n.id n }

/-- `Workflow.add_connection`. -/
def addConnection (w : Workflow) (c : Conn) : Workflow :=
  { w with connections := w.connections ++ [c] }

/-- The node-id keys of the workflow, in dictionary (insertion) order. -/
def nodeKeys (w : Workflow) : List String := w.nodes.map Prod.fst

/-- The adjacency list built at the top of `_topological_sort`: for a
node id `u`, the targets of the connections whose source is `u` and
whose both endpoints are known node ids, in connection order. -/
def adjacencyOf (keys : List String) (conns : List Conn) (u : String) : List String :=
  if u ∈ keys then
    (conns.filter (fun c => c.source == u && keys.contains c.target)).map (fun c => c.target)
  else []

/-- The reversed adjacency built in `_assign_levels`: the sources of the
valid connections targeting `v`. -/
def revAdjacencyOf (keys : List String) (conns : List Conn) (v : String) : List String :=
  if v ∈ keys then
    (conns.filter (fun c => c.target == v && keys.contains c.source)).map (fun c => c.source)
  else []

/-- DFS state of `_topological_sort`: the `visited` and `temp_visited`
sets and the post-order `result` list. -/
structure DfsSt where
  visited : List String
  temp : List String
  result : List String
deriving DecidableEq, Repr

mutual

/-- The recursive `visit` closure of `_topological_sort`.  Recursion in
Python is unbounded; here a fuel parameter bounds the depth, and we prove
below that `keys.length + 1` fuel is never exhausted. -/
def dfsVisit (adj : String → List String) : Nat → DfsSt → String → DfsSt
  | 0, s, _ => s
  | fuel + 1, s, u =>
    if u ∈ s.temp then s
    else if u ∈ s.visited then s
    else
      let s1 : DfsSt := { s with temp := u :: s.temp }
      let s2 := dfsNeighbors adj fuel s1 (adj u)
      { visited := u :: s2.visited, temp := s2.temp.erase u, result := s2.result ++ [u] }

/-- The `for neighbor in adjacency[node_id]` loop inside `visit`. -/
def dfsNeighbors (adj : String → List String) : Nat → DfsSt → List String → DfsSt
  | _, s, [] => s
  | fuel, s, v :: vs => dfsNeighbors adj fuel (dfsVisit adj fuel s v) vs

end

/-- `Workflow._topological_sort`: DFS from every node in dictionary
order, post-order collected then reversed. -/
def topologicalSort (keys : List String) (conns : List Conn) : List String :=
  let adj := adjacencyOf keys conns
  let s := keys.foldl
    (fun s u => if u ∈ s.visited then s else dfsVisit adj (keys.length + 1) s u)
    ⟨[], [], []⟩
  s.result.reverse

/-- Assignment `node_to_level[node_id] = v` on the association list
mirroring the Python dict. -/
def levelSet (m : List (String × Nat)) (k : String) (v : Nat) : List (String × Nat) :=
  if m.any (fun p => p.1 == k) then m.map (fun p => if p.1 = k then (k, v) else p)
  else m ++ [(k, v)]

/-- The level computed for one node in `_assign_levels`: 0 when it has
no (valid) incoming connection, else one more than the maximum known
level of its sources (unknown sources default to level 0). -/
def levelValue (revAdj : String → List String) (acc : List (String × Nat)) (u : String) : Nat :=
  if revAdj u = [] then 0
  else ((revAdj u).map (fun dep => (acc.lookup dep).getD 0)).foldl max 0 + 1

/-- The `node_to_level` map of `_assign_levels`, built over the
topological ordering. -/
def nodeToLevel (revAdj : String → List String) (ordered : List String) : List (String × Nat) :=
  ordered.foldl (fun acc u => levelSet acc u (levelValue revAdj acc u)) []

/-- `node_levels[level].append(node_id)` (creating the bucket on first
use), mirroring the grouping loop of `_assign_levels`. -/
def groupSet (m : List (Nat × List String)) (l : Nat) (id : String) : List (Nat × List String) :=
  if m.any (fun p => p.1 == l) then m.map (fun p => if p.1 = l then (p.1, p.2 ++ [id]) else p)
  else m ++ [(l, [id])]

/-- The grouping loop of `_assign_levels`: bucket the `node_to_level`
entries by level, in insertion order. -/
def levelGroups (ntl : List (String × Nat)) : List (Nat × List String) :=
  ntl.foldl (fun m p => groupSet m p.2 p.1) []

/-- Insert into a key-sorted list of level groups. -/
def insSorted (p : Nat × List String) : List (Nat × List String) → List (Nat × List String)
  | [] => [p]
  | q :: qs => if p.1 ≤ q.1 then p :: q :: qs else q :: insSorted p qs

/-- `sorted(node_levels.items())`: the level groups in ascending level
order (levels are unique keys, so the order is fully determined). -/
def sortByKey (l : List (Nat × List String)) : List (Nat × List String) :=
  l.foldr insSorted []

/-- `_assign_levels` composed with the `sorted(...)` consumption in
`calculate_layout`: the level groups in ascending level order. -/
def levelsOf (keys : List String) (conns : List Conn) : List (Nat × List String) :=
  sortByKey (levelGroups (nodeToLevel (revAdjacencyOf keys conns) (topologicalSort keys conns)))

/-- Python `max(...)` over a list of naturals: raises (`none`) on an
empty sequence. -/
def pyMax (l : List Nat) : Option Nat :=
  match l with
  | [] => none
  | h :: t => some (t.foldl max h)

/-- Python `max(...)` over a list of integers. -/
def pyMaxI (l : List Int) : Option Int :=
  match l with
  | [] => none
  | h :: t => some (t.foldl max h)

/-- The first pass of `calculate_layout`: every node's box dimensions
are computed in place. -/
def dimsNodes (w : Workflow) : List (String × Node) :=
  w.nodes.map (fun p => (p.1, calcDims p.2))

/-- Look up the heights of a level's nodes (`none` = `KeyError`). -/
def lookupHeights (ns : List (String × Node)) : List String → Option (List Nat)
  | [] => some []
  | id :: t => do
    let n ← ns.lookup id
    let rest ← lookupHeights ns t
    pure (n.height :: rest)

/-- Placement of one node within a level: `node.x = (i+1)·spacing −
width//2`, `node.y = current_y` (`none` models the `KeyError` of
`self.nodes[node_id]`). -/
def placeNode (spacing currentY : Nat) (ns : List (String × Node)) (p : Nat × String) :
    Option (List (String × Node)) := do
  let n ← ns.lookup p.2
  pure (dictSet ns p.2 { n with
    x := (((p.1 + 1) * spacing : Nat) : Int) - ((n.width / 2 : Nat) : Int),
    y := (currentY : Int) })

/-- Placement of one level in `calculate_layout`: the running state is
`(nodes, current_y)`; `none` models an uncaught `KeyError`/`ValueError`
(missing node id, or `max` over an empty level). -/
def placeLevel (maxWidth : Nat) (acc : List (String × Node) × Nat) (lvl : Nat × List String) :
    Option (List (String × Node) × Nat) := do
  let ns := acc.1
  let currentY := acc.2
  let heights ← lookupHeights ns lvl.2
  let maxHeight ← pyMax heights
  let levelHeight := maxHeight + 2
  let availableWidth := max 80 (maxWidth * lvl.2.length)
  let spacing := availableWidth / (lvl.2.length + 1)
  let ns2 ← lvl.2.enum.foldlM (placeNode spacing currentY) ns
  pure (ns2, currentY + levelHeight)

/-- `Workflow._route_connections`: a two-point path from the
bottom-center of the source box to the top-center of the target box;
connections with an unknown endpoint are left untouched. -/
def routeConnections (w : Workflow) : Workflow :=
  { w with connections := w.connections.map (fun c =>
      match w.nodes.lookup c.source, w.nodes.lookup c.target with
      | some s, some t =>
        { c with path := [ (s.x + ((s.width / 2 : Nat) : Int), s.y + (s.height : Int)),
                           (t.x + ((t.width / 2 : Nat) : Int), t.y) ] }
      | _, _ => c) }

/-- `Workflow.calculate_layout`. -/
def calculateLayout (w : Workflow) : Option Workflow :=
  if w.nodes.isEmpty then some w
  else do
    let nodes1 := dimsNodes w
    let keys := nodeKeys w
    let mw ← pyMax (nodes1.map (fun p => p.2.width))
    let maxWidth := mw + 10
    let levels := levelsOf keys w.connections
    let fin ← levels.foldlM (placeLevel maxWidth) (nodes1, 2)
    let mx ← pyMaxI (fin.1.map (fun p => p.2.x + (p.2.width : Int)))
    let canvasW := max (mx + 5) ((w.title.length : Int) + 4)
    pure (routeConnections { w with
      nodes := fin.1, canvas_width := canvasW, canvas_height := ((fin.2 : Nat) : Int) + 2 })

/-- Overwrite only the position of a node. -/
def setXY (n : Node) (x y : Int) : Node := { n with x := x, y := y }

/-- `cur` is `base` with only node positions possibly changed: same keys
in the same order, and each stored node differs from its base version at
most in `x` and `y`. -/
def NodesXY (base cur : List (String × Node)) : Prop :=
  cur.map Prod.fst = base.map Prod.fst ∧
  ∀ id n, cur.lookup id = some n → ∃ n₀, base.lookup id = some n₀ ∧ n = setXY n₀ n.x n.y

/-- The height `calculate_layout` reads for a node id (0 if absent —
never hit on the success path). -/
def heightOfD (base : List (String × Node)) (id : String) : Nat :=
  ((base.lookup id).map Node.height).getD 0

/-- Row height of a level: maximum box height among the level's steps
plus 2. -/
def levelRowHeight (base : List (String × Node)) (lst : List String) : Nat :=
  (lst.map (heightOfD base)).foldl max 0 + 2

/-- `max_width` of `calculate_layout`: the global maximum step width
plus 10. -/
def maxWidthOf (w : Workflow) : Nat :=
  ((dimsNodes w).map (fun p => p.2.width)).foldl max 0 + 10

/-- Horizontal spacing used for a level of `cnt` steps. -/
def spacingFor (w : Workflow) (cnt : Nat) : Nat :=
  max 80 (maxWidthOf w * cnt) / (cnt + 1)

/-- The running vertical offset at which a level is placed: 2 plus the
row heights of all lower-numbered levels. -/
def yOffsetOf (w : Workflow) (L : Nat) : Nat :=
  2 + (((levelsOf (nodeKeys w) w.connections).filter (fun p => p.1 < L)).map
    (fun p => levelRowHeight (dimsNodes w) p.2)).sum

/-- The character grid (cells are Python strings). -/
abbrev Grid := List (List String)

/-- Python list index resolution for `l[i]`: an in-range non-negative
index is used as is, a negative index at least `-len` wraps around to
`len + i`, anything else raises `IndexError`. -/
def pyIdx (n : Nat) (i : Int) : Option Nat :=
  if 0 ≤ i then (if i < (n : Int) then some i.toNat else none)
  else (if 0 ≤ i + (n : Int) then some (i + (n : Int)).toNat else none)

/-- The Python cell assignment `canvas[y][x] = c`, with Python's
indexing semantics (`none` = `IndexError`). -/
def pyWrite (g : Grid) (y x : Int) (c : String) : Option Grid :=
  match pyIdx g.length y with
  | none => none
  | some r =>
    match pyIdx (g.getD r []).length x with
    | none => none
    | some k => some (g.set r ((g.getD r []).set k c))

/-- The cell write the specification describes: a write whose target
lies outside `[0,W) × [0,H)` is silently not performed, an in-bounds
write changes exactly the addressed cell. -/
def clipWrite (W H : Int) (g : Grid) (y x : Int) (c : String) : Grid :=
  if 0 ≤ x ∧ x < W ∧ 0 ≤ y ∧ y < H then
    g.set y.toNat ((g.getD y.toNat []).set x.toNat c)
  else g

/-- Python `range(a, b)` over integers. -/
def intRange (a b : Int) : List Int :=
  (List.range (b - a).toNat).map (fun k => a + (k : Int))

/-- The title drawing loop of `render` (row 0, horizontally centred,
per-cell guard on the column only). -/
def drawTitle (W : Int) (title : String) (g : Grid) : Option Grid :=
  let pos := Int.fdiv (W - (title.length : Int)) 2
  title.toList.enum.foldlM (fun g p =>
    if 0 ≤ pos + (p.1 : Int) ∧ pos + (p.1 : Int) < W then
      pyWrite g 0 (pos + (p.1 : Int)) (String.singleton p.2)
    else pure g) g

/-- One path segment of `_draw_connections`: a vertical segment paints
the column (a `v` arrow on the second-to-last row of the last segment),
a horizontal segment paints the row (the arrow glyph before its end),
a diagonal segment paints nothing. -/
def drawConnSeg (W H : Int) (style : ConnStyle) (arrow : String) (last : Bool)
    (seg : (Int × Int) × Int × Int) (g : Grid) : Option Grid :=
  if seg.1.1 = seg.2.1 then
    (intRange (min seg.1.2 seg.2.2) (max seg.1.2 seg.2.2 + 1)).foldlM (fun g y =>
      if 0 ≤ seg.1.1 ∧ seg.1.1 < W ∧ 0 ≤ y ∧ y < H then
        if y = seg.2.2 - 1 ∧ last = true then pyWrite g y seg.1.1 "v"
        else pyWrite g y seg.1.1 style.vertical
      else pure g) g
  else if seg.1.2 = seg.2.2 then
    (intRange (min seg.1.1 seg.2.1) (max seg.1.1 seg.2.1 + 1)).foldlM (fun g x =>
      if 0 ≤ x ∧ x < W ∧ 0 ≤ seg.1.2 ∧ seg.1.2 < H then
        if x = seg.2.1 - 1 ∧ last = true then pyWrite g seg.1.2 x arrow
        else pyWrite g seg.1.2 x style.horizontal
      else pure g) g
  else pure g

/-- One connection of `_draw_connections`: skipped when the path has
fewer than two points; else every segment is drawn, then the label (if
truthy) one cell right of the path's midpoint, clipped per cell. -/
def drawConnection (W H : Int) (conn : Conn) (g : Grid) : Option Grid :=
  if conn.path.length < 2 then pure g
  else do
    let g ← ((conn.path.zip conn.path.tail).enum).foldlM (fun g s =>
        drawConnSeg W H conn.style conn.arrow (decide (s.1 = conn.path.length - 2)) s.2 g) g
    match conn.label with
    | some lab =>
      if lab ≠ "" then
        let pt := conn.path.getD (conn.path.length / 2) (0, 0)
        if 0 ≤ pt.2 ∧ pt.2 < H then
          lab.toList.enum.foldlM (fun g p =>
            if 0 ≤ pt.1 + 1 + (p.1 : Int) ∧ pt.1 + 1 + (p.1 : Int) < W then
              pyWrite g pt.2 (pt.1 + 1 + (p.1 : Int)) (String.singleton p.2)
            else pure g) g
        else pure g
      else pure g
    | none => pure g

/-- `Workflow._draw_node`: top and bottom borders, side borders, then
the interior text lines (left anchored at `x + padding`, cut at
`min (x + width - padding) W`). -/
def drawNode (W H : Int) (node : Node) (g : Grid) : Option Grid := do
  let st := node.style
  let g ← (intRange node.x (node.x + (node.width : Int))).foldlM (fun g x =>
      if 0 ≤ x ∧ x < W ∧ 0 ≤ node.y ∧ node.y < H then
        pyWrite g node.y x
          (if x = node.x then st.top_left
           else if x = node.x + (node.width : Int) - 1 then st.top_right
           else st.horizontal)
      else pure g) g
  let g ← (intRange node.x (node.x + (node.width : Int))).foldlM (fun g x =>
      if 0 ≤ x ∧ x < W ∧ 0 ≤ node.y + (node.height : Int) - 1 ∧
          node.y + (node.height : Int) - 1 < H then
        pyWrite g (node.y + (node.height : Int) - 1) x
          (if x = node.x then st.bottom_left
           else if x = node.x + (node.width : Int) - 1 then st.bottom_right
           else st.horizontal)
      else pure g) g
  let g ← (intRange (node.y + 1) (node.y + (node.height : Int) - 1)).foldlM (fun g y =>
      if 0 ≤ y ∧ y < H then
        (if 0 ≤ node.x ∧ node.x < W then pyWrite g y node.x st.vertical else pure g).bind
          (fun g =>
            if 0 ≤ node.x + (node.width : Int) - 1 ∧
                node.x + (node.width : Int) - 1 < W then
              pyWrite g y (node.x + (node.width : Int) - 1) st.vertical
            else pure g)
      else pure g) g
  (getDisplayText node).enum.foldlM (fun g li =>
      let y := node.y + (st.padding : Int) + (li.1 : Int)
      if 0 ≤ y ∧ y < H then
        let startX := node.x + (st.padding : Int)
        let endX := min (node.x + (node.width : Int) - (st.padding : Int)) W
        li.2.toList.enum.foldlM (fun g p =>
          if startX ≤ startX + (p.1 : Int) ∧ startX + (p.1 : Int) < endX then
            pyWrite g y (startX + (p.1 : Int)) (String.singleton p.2)
          else pure g) g
      else pure g) g

/-- The blank canvas allocated at the start of `render`. -/
def blankGrid (W H : Int) : Grid :=
  List.replicate H.toNat (List.replicate W.toNat " ")

/-- The painting phase of `render`: title, then every connection in
insertion order, then every node in dictionary order. -/
def paintPy (w : Workflow) : Option Grid := do
  let g ← drawTitle w.canvas_width w.title (blankGrid w.canvas_width w.canvas_height)
  let g ← w.connections.foldlM
      (fun g c => drawConnection w.canvas_width w.canvas_height c g) g
  w.nodes.foldlM (fun g p => drawNode w.canvas_width w.canvas_height p.2 g) g

/-- `'\n'.join(''.join(row) for row in canvas)`. -/
def serializeGrid (g : Grid) : String :=
  String.intercalate "\n" (g.map String.join)

/-- `Workflow.render`: the empty-workflow literal, else layout (only
when the canvas has never been built), repaint, serialize.  The
returned workflow carries the mutations `render` makes to `self`. -/
def renderM (w : Workflow) : Option (Workflow × String) :=
  if w.nodes.isEmpty then some (w, "Empty workflow")
  else do
    let w1 ← if w.canvas.isEmpty then calculateLayout w else some w
    let g ← paintPy w1
    pure ({ w1 with canvas := g }, serializeGrid g)

/-! The mirror of the painting phase written from the specification's
words: every paint operation writes through `clipWrite`, so any
coordinate outside `[0,W) × [0,H)` is simply not written — no error and
no wraparound.  `C1` below proves the faithful Python-semantics painter
refines into this one. -/

/-- Title drawing, clipped-write semantics. -/
def drawTitleClip (W H : Int) (title : String) (g : Grid) : Grid :=
  let pos := Int.fdiv (W - (title.length : Int)) 2
  title.toList.enum.foldl (fun g p =>
    clipWrite W H g 0 (pos + (p.1 : Int)) (String.singleton p.2)) g

/-- One path segment, clipped-write semantics. -/
def drawConnSegClip (W H : Int) (style : ConnStyle) (arrow : String) (last : Bool)
    (seg : (Int × Int) × Int × Int) (g : Grid) : Grid :=
  if seg.1.1 = seg.2.1 then
    (intRange (min seg.1.2 seg.2.2) (max seg.1.2 seg.2.2 + 1)).foldl (fun g y =>
      if y = seg.2.2 - 1 ∧ last = true then clipWrite W H g y seg.1.1 "v"
      else clipWrite W H g y seg.1.1 style.vertical) g
  else if seg.1.2 = seg.2.2 then
    (intRange (min seg.1.1 seg.2.1) (max seg.1.1 seg.2.1 + 1)).foldl (fun g x =>
      if x = seg.2.1 - 1 ∧ last = true then clipWrite W H g seg.1.2 x arrow
      else clipWrite W H g seg.1.2 x style.horizontal) g
  else g

/-- One connection, clipped-write semantics. -/
def drawConnectionClip (W H : Int) (conn : Conn) (g : Grid) : Grid :=
  if conn.path.length < 2 then g
  else
    let g := ((conn.path.zip conn.path.tail).enum).foldl (fun g s =>
        drawConnSegClip W H conn.style conn.arrow (decide (s.1 = conn.path.length - 2)) s.2 g) g
    match conn.label with
    | some lab =>
      if lab ≠ "" then
        let pt := conn.path.getD (conn.path.length / 2) (0, 0)
        lab.toList.enum.foldl (fun g p =>
          clipWrite W H g pt.2 (pt.1 + 1 + (p.1 : Int)) (String.singleton p.2)) g
      else g
    | none => g

/-- One node box, clipped-write semantics: the only condition kept
besides clipping is the box-interior cut of the text at
`x + width - padding`, which is part of the drawing's shape. -/
def drawNodeClip (W H : Int) (node : Node) (g : Grid) : Grid :=
  let st := node.style
  let g := (intRange node.x (node.x + (node.width : Int))).foldl (fun g x =>
      clipWrite W H g node.y x
        (if x = node.x then st.top_left
         else if x = node.x + (node.width : Int) - 1 then st.top_right
         else st.horizontal)) g
  let g := (intRange node.x (node.x + (node.width : Int))).foldl (fun g x =>
      clipWrite W H g (node.y + (node.height : Int) - 1) x
        (if x = node.x then st.bottom_left
         else if x = node.x + (node.width : Int) - 1 then st.bottom_right
         else st.horizontal)) g
  let g := (intRange (node.y + 1) (node.y + (node.height : Int) - 1)).foldl (fun g y =>
      let g := clipWrite W H g y node.x st.vertical
      clipWrite W H g y (node.x + (node.width : Int) - 1) st.vertical) g
  (getDisplayText node).enum.foldl (fun g li =>
      let y := node.y + (st.padding : Int) + (li.1 : Int)
      let startX := node.x + (st.padding : Int)
      let endX := node.x + (node.width : Int) - (st.padding : Int)
      li.2.toList.enum.foldl (fun g p =>
        if startX + (p.1 : Int) < endX then
          clipWrite W H g y (startX + (p.1 : Int)) (String.singleton p.2)
        else g) g) g

/-- The painting phase, clipped-write semantics. -/
def paintClip (w : Workflow) : Grid :=
  let g := drawTitleClip w.canvas_width w.canvas_height w.title
      (blankGrid w.canvas_width w.canvas_height)
  let g := w.connections.foldl
      (fun g c => drawConnectionClip w.canvas_width w.canvas_height c g) g
  w.nodes.foldl (fun g p => drawNodeClip w.canvas_width w.canvas_height p.2 g) g

/-- `render` with the specification's clipped-write painting. -/
def renderClip (w : Workflow) : Option (Workflow × String) :=
  if w.nodes.isEmpty then some (w, "Empty workflow")
  else do
    let w1 ← if w.canvas.isEmpty then calculateLayout w else some w
    let g := paintClip w1
    pure ({ w1 with canvas := g }, serializeGrid g)

/-- A workflow as produced by construction plus `add_node` /
`add_connection`: the canvas has never been built and node ids are
unique (the Python `dict` enforces this). -/
def Built (w : Workflow) : Prop :=
  w.canvas = [] ∧ (w.nodes.map Prod.fst).Nodup

instance : DecidablePred Built := fun w => by
  unfold Built; infer_instance

/-- Length of the longest word in a list. -/
def maxWordLen (ws : List String) : Nat := (ws.map String.length).foldl max 0

/-- The invariant the wrap loop maintains:  every flushed group joins to
a string of length at most `max M K`, the tracked running length equals
the join length of the current group, current words are nonempty, and
the running length is within the bound. -/
def WrapInv (M K : Nat) (st : List (List String) × List String × Nat) : Prop :=
  (∀ g ∈ st.1, (pyJoin g).length ≤ max M K) ∧
  (pyJoin st.2.1).length = st.2.2 ∧
  (∀ v ∈ st.2.1, v ≠ "") ∧
  st.2.2 ≤ max M K

/-- The number of node ids a DFS may still open: those neither
in progress nor finished.  The DFS fuel only has to dominate this. -/
def dfsMeasure (allKeys : List String) (s : DfsSt) : Nat :=
  (allKeys.filter (fun w => decide (w ∉ s.temp ∧ w ∉ s.visited))).length

/-- The structural invariant of the DFS state: `result` and `visited`
hold the same ids, `result` has no duplicates, `visited` stays inside
the node-id set, and no in-progress id is finished. -/
def BasicInv (allKeys : List String) (s : DfsSt) : Prop :=
  (∀ x, x ∈ s.result ↔ x ∈ s.visited) ∧
  s.result.Nodup ∧
  (∀ x ∈ s.visited, x ∈ allKeys) ∧
  (∀ x ∈ s.temp, x ∉ s.visited)

/-- `v` occurs strictly before `w` in `l`. -/
def Before (v w : String) (l : List String) : Prop :=
  ∃ l₁ l₂, l = l₁ ++ w :: l₂ ∧ v ∈ l₁

/-- The ordering invariant of the DFS: every out-neighbor of a finished
node is itself finished, strictly earlier in the post-order list. -/
def TopoInv (adj : String → List String) (s : DfsSt) : Prop :=
  ∀ w v, w ∈ s.visited → v ∈ adj w → v ∈ s.result ∧ Before v w s.result

/-- A small two-step workflow (`a → b`), used to witness theorems at a
concrete input. -/
def sampleDag : Workflow :=
  addConnection
    (addNode (addNode (mkWorkflow "T") (mkNode "a" "Start" "start" none none none))
      (mkNode "b" "End" "result" none none none))
    (mkConnection "a" "b" "normal" none)

/-- A two-step workflow with a cycle (`A → B → A`). -/
def sampleCycle : Workflow :=
  addConnection
    (addConnection
      (addNode (addNode (mkWorkflow "Cycle") (mkNode "A" "Aa" "process" none none none))
        (mkNode "B" "Bb" "process" none none none))
      (mkConnection "A" "B" "normal" none))
    (mkConnection "B" "A" "normal" none)

/-- A one-step workflow with a dangling connection (`a → ghost`). -/
def sampleDangling : Workflow :=
  addConnection (addNode (mkWorkflow "T") (mkNode "a" "A" "process" none none none))
    (mkConnection "a" "ghost" "normal" none)

/-- A cyclic workflow that also has a dangling connection. -/
def sampleMessy : Workflow :=
  addConnection sampleCycle (mkConnection "B" "nowhere" "normal" none)

/-- What every DFS call guarantees about its state transition:
invariants are kept, the in-progress stack is restored, finished nodes
only accumulate, the post-order list only grows on the right, and the
measure does not increase. -/
def DfsPost (allKeys : List String) (s s' : DfsSt) : Prop :=
  BasicInv allKeys s' ∧ s'.temp = s.temp ∧ s.visited ⊆ s'.visited ∧
  (∃ t, s'.result = s.result ++ t) ∧ dfsMeasure allKeys s' ≤ dfsMeasure allKeys s

/-- The canvas shape invariant every painting step preserves: exactly
`H.toNat` rows of `W.toNat` cells each. -/
def gridOK (W H : Int) (g : Grid) : Prop :=
  g.length = H.toNat ∧ ∀ row ∈ g, row.length = W.toNat

section MaxLemmas

variable {α : Type} [LinearOrder α]

theorem le_foldl_max (l : List α) (init : α) : init ≤ l.foldl max init := by
  induction l generalizing init with
  | nil => exact le_refl _
  | cons h t ih => exact le_trans (le_max_left init h) (ih (max init h))

theorem mem_le_foldl_max {a : α} (l : List α) (init : α) (h : a ∈ l) :
    a ≤ l.foldl max init := by
  induction l generalizing init with
  | nil => cases h
  | cons x t ih =>
    rcases List.mem_cons.mp h with rfl | hm
    · exact le_trans (le_max_right init a) (le_foldl_max t (max init a))
    · exact ih (max init x) hm

theorem foldl_max_le {b : α} (l : List α) (init : α) (hi : init ≤ b)
    (h : ∀ a ∈ l, a ≤ b) : l.foldl max init ≤ b := by
  induction l generalizing init with
  | nil => exact hi
  | cons x t ih =>
    exact ih (max init x) (max_le hi (h x (List.mem_cons_self x t)))
      (fun a ha => h a (List.mem_cons_of_mem x ha))

end MaxLemmas

theorem pyMax_spec {l : List Nat} {m : Nat} (h : pyMax l = some m) :
    ∀ a ∈ l, a ≤ m := by
  cases l with
  | nil => simp [pyMax] at h
  | cons x t =>
    simp only [pyMax, Option.some.injEq] at h
    intro a ha
    subst h
    rcases List.mem_cons.mp ha with rfl | hm
    · exact le_foldl_max t a
    · exact mem_le_foldl_max t x hm

theorem pyMaxI_spec {l : List Int} {m : Int} (h : pyMaxI l = some m) :
    ∀ a ∈ l, a ≤ m := by
  cases l with
  | nil => simp [pyMaxI] at h
  | cons x t =>
    simp only [pyMaxI, Option.some.injEq] at h
    intro a ha
    subst h
    rcases List.mem_cons.mp ha with rfl | hm
    · exact le_foldl_max t a
    · exact mem_le_foldl_max t x hm

theorem pyMax_ne_nil {l : List Nat} (h : l ≠ []) : ∃ m, pyMax l = some m := by
  cases l with
  | nil => exact absurd rfl h
  | cons x t => exact ⟨_, rfl⟩

theorem pyMaxI_ne_nil {l : List Int} (h : l ≠ []) : ∃ m, pyMaxI l = some m := by
  cases l with
  | nil => exact absurd rfl h
  | cons x t => exact ⟨_, rfl⟩

theorem pyJoin_cons (h : String) (t : List String) (w : String) :
    pyJoin (h :: (t ++ [w])) = pyJoin (h :: t) ++ " " ++ w := by
  simp [pyJoin, List.foldl_append]

theorem pyJoin_length_ge (h : String) (t : List String) :
    h.length ≤ (pyJoin (h :: t)).length := by
  show h.length ≤ (t.foldl (fun acc w => acc ++ " " ++ w) h).length
  induction t generalizing h with
  | nil => exact le_refl _
  | cons x t ih =>
    refine le_trans ?_ (ih (h ++ " " ++ x))
    simp [String.length_append]
    omega

theorem wordsAux_ne_empty : ∀ (l cur : List Char), ∀ w ∈ wordsAux cur l, w ≠ "" := by
  intro l
  induction l with
  | nil =>
    intro cur w hw
    unfold wordsAux at hw
    by_cases hc : cur = []
    · rw [if_pos hc] at hw
      cases hw
    · rw [if_neg hc] at hw
      rcases List.mem_singleton.mp hw with rfl
      intro he
      apply hc
      have : cur.reverse = ([] : List Char) := congrArg String.data he
      simpa using this
  | cons c cs ih =>
    intro cur w hw
    unfold wordsAux at hw
    by_cases hws : c.isWhitespace
    · rw [if_pos hws] at hw
      by_cases hc : cur = []
      · rw [if_pos hc] at hw
        exact ih [] w hw
      · rw [if_neg hc] at hw
        rcases List.mem_cons.mp hw with rfl | hw2
        · intro he
          apply hc
          have : cur.reverse = ([] : List Char) := congrArg String.data he
          simpa using this
        · exact ih [] w hw2
    · rw [if_neg hws] at hw
      exact ih (c :: cur) w hw

theorem pyWords_ne_empty (s : String) : ∀ w ∈ pyWords s, w ≠ "" :=
  wordsAux_ne_empty s.toList []

theorem pyWords_le_maxWordLen (s : String) :
    ∀ w ∈ pyWords s, w.length ≤ maxWordLen (pyWords s) := by
  intro w hw
  exact mem_le_foldl_max _ 0 (List.mem_map_of_mem String.length hw)

theorem str_length_pos {s : String} (h : s ≠ "") : 0 < s.length := by
  cases hs : s.length with
  | zero =>
    exfalso
    apply h
    cases s with
    | mk data =>
      simp [String.length] at hs
      simp [hs]
  | succ n => omega

theorem wrapStep_invariant {M K : Nat} {st : List (List String) × List String × Nat}
    {w : String} (hwK : w.length ≤ K) (hwne : w ≠ "") (h : WrapInv M K st) :
    WrapInv M K (wrapStep M st w) := by
  obtain ⟨hacc, hcur, hcne, hclen⟩ := h
  rcases st with ⟨acc, cur, clen⟩
  dsimp only at hacc hcur hcne hclen
  unfold wrapStep WrapInv
  by_cases hfits : clen + w.length + (if 0 < clen then 1 else 0) ≤ M
  · rw [if_pos hfits]
    by_cases hpos : 0 < clen
    · rw [if_pos hpos]
      rw [if_pos hpos] at hfits
      have hcurne : cur ≠ [] := by
        intro hc
        rw [hc] at hcur
        simp [pyJoin] at hcur
        omega
      obtain ⟨ch, ct, rfl⟩ := List.exists_cons_of_ne_nil hcurne
      refine ⟨hacc, ?_, ?_, ?_⟩
      · show (pyJoin (ch :: (ct ++ [w]))).length = clen + w.length + 1
        rw [pyJoin_cons, String.length_append, String.length_append, hcur]
        show clen + 1 + w.length = clen + w.length + 1
        omega
      · intro v hv
        rcases List.mem_cons.mp hv with rfl | hv2
        · exact hcne v (List.mem_cons_self v ct)
        · rcases List.mem_append.mp hv2 with hv3 | hv4
          · exact hcne v (List.mem_cons_of_mem ch hv3)
          · rcases List.mem_singleton.mp hv4 with rfl
            exact hwne
      · show clen + w.length + 1 ≤ max M K
        exact le_max_of_le_left (by omega)
    · rw [if_neg hpos]
      rw [if_neg hpos] at hfits
      have hcurnil : cur = [] := by
        rcases hcc : cur with _ | ⟨ch, ct⟩
        · rfl
        · exfalso
          rw [hcc] at hcur hcne
          have h1 := pyJoin_length_ge ch ct
          have h3 : 0 < ch.length := str_length_pos (hcne ch (List.mem_cons_self ch ct))
          omega
      subst hcurnil
      refine ⟨hacc, ?_, ?_, ?_⟩
      · show (pyJoin [w]).length = clen + w.length
        have : clen = 0 := by omega
        simp [pyJoin, this]
      · intro v hv
        rcases List.mem_singleton.mp (by simpa using hv) with rfl
        exact hwne
      · show clen + w.length ≤ max M K
        exact le_max_of_le_left (by omega)
  · rw [if_neg hfits]
    refine ⟨?_, ?_, ?_, show w.length ≤ max M K from le_max_of_le_right hwK⟩
    · intro g hg
      rcases List.mem_append.mp hg with hg1 | hg2
      · exact hacc g hg1
      · rcases List.mem_singleton.mp hg2 with rfl
        rw [hcur]
        exact hclen
    · show (pyJoin [w]).length = w.length
      simp [pyJoin]
    · intro v hv
      rcases List.mem_singleton.mp hv with rfl
      exact hwne

theorem wrapFold_invariant (M K : Nat) (ws : List String)
    (st : List (List String) × List String × Nat)
    (hK : ∀ w ∈ ws, w.length ≤ K) (hne : ∀ w ∈ ws, w ≠ "")
    (h : WrapInv M K st) : WrapInv M K (ws.foldl (wrapStep M) st) := by
  induction ws generalizing st with
  | nil => exact h
  | cons w t ih =>
    simp only [List.foldl_cons]
    exact ih (wrapStep M st w) (fun v hv => hK v (List.mem_cons_of_mem w hv))
      (fun v hv => hne v (List.mem_cons_of_mem w hv))
      (wrapStep_invariant (hK w (List.mem_cons_self w t))
        (hne w (List.mem_cons_self w t)) h)

/-- Every line produced by the wrap loop has length at most
`max M (longest word length)`. -/
theorem wrappedDesc_bound (M : Nat) (ws : List String) (hne : ∀ w ∈ ws, w ≠ "") :
    ∀ l ∈ wrappedDesc M ws, l.length ≤ max M (maxWordLen ws) := by
  have hinv := wrapFold_invariant M (maxWordLen ws) ws ([], [], 0)
    (fun w hw => mem_le_foldl_max _ 0 (List.mem_map_of_mem String.length hw)) hne
    (by refine ⟨by simp, by simp [pyJoin], by simp, by simp⟩)
  obtain ⟨hacc, hcur, _, hclen⟩ := hinv
  intro l hl
  unfold wrappedDesc at hl
  rcases List.mem_map.mp hl with ⟨g, hg, rfl⟩
  unfold wrapGroups at hg
  by_cases hc : (ws.foldl (wrapStep M) ([], [], 0)).2.1 ≠ []
  · rw [if_pos hc] at hg
    rcases List.mem_append.mp hg with hg1 | hg2
    · exact hacc g hg1
    · rcases List.mem_singleton.mp hg2 with rfl
      rw [hcur]
      exact hclen
  · rw [if_neg hc] at hg
    exact hacc g hg

/-- The wrap loop never splits nor drops a word: the concatenation of
the groups is the original word list. -/
theorem wrapFold_flatten (M : Nat) (ws : List String)
    (st : List (List String) × List String × Nat) :
    ((ws.foldl (wrapStep M) st).1).flatten ++ (ws.foldl (wrapStep M) st).2.1 =
      st.1.flatten ++ st.2.1 ++ ws := by
  induction ws generalizing st with
  | nil => simp
  | cons w t ih =>
    simp only [List.foldl_cons]
    rw [ih]
    rcases st with ⟨acc, cur, clen⟩
    unfold wrapStep
    by_cases hfits : clen + w.length + (if 0 < clen then 1 else 0) ≤ M
    · rw [if_pos hfits]
      by_cases hpos : 0 < clen <;> simp [hpos]
    · rw [if_neg hfits]
      simp

theorem wrapGroups_flatten (M : Nat) (ws : List String) :
    (wrapGroups M ws).flatten = ws := by
  unfold wrapGroups
  have h := wrapFold_flatten M ws ([], [], 0)
  simp only [List.flatten_nil, List.nil_append] at h
  by_cases hc : (ws.foldl (wrapStep M) ([], [], 0)).2.1 ≠ []
  · rw [if_pos hc, List.flatten_append]
    simpa using h
  · rw [if_neg hc]
    rw [not_not] at hc
    rw [hc] at h
    simpa using h

theorem wrapGroups_ne_nil (M : Nat) {ws : List String} (h : ws ≠ []) :
    wrapGroups M ws ≠ [] := by
  intro hg
  apply h
  have := wrapGroups_flatten M ws
  rw [hg] at this
  simpa using this.symm

theorem getDisplayText_desc {n : Node} {d : String} (hd : n.description = some d)
    (hne : d ≠ "") :
    getDisplayText n = firstLine n :: wrappedDesc (max (firstLine n).length 30) (pyWords d) := by
  unfold getDisplayText
  rw [hd]
  simp [hne]

theorem getDisplayText_length_pos (n : Node) : 0 < (getDisplayText n).length := by
  unfold getDisplayText
  cases n.description with
  | none => simp
  | some d =>
    by_cases hd : d ≠ "" <;> simp [hd]

/-- Claim C2, counterexample: the claim asserts `width ≥ 2 + 2·padding`
and `height ≥ 2 + 2·padding` after layout.  A node with the one-letter
label `"X"`, no icon and no description has one display line of length
one, so `calculate_dimensions` yields `width = 1 + 2·1 = 3` and
`height = 1 + 2·1 = 3`, both below `2 + 2·1 = 4`. -/
theorem C2_counterexample :
    (calcDims (mkNode "a" "X" "process" none none none)).height <
      2 + 2 * (calcDims (mkNode "a" "X" "process" none none none)).style.padding ∧
    (calcDims (mkNode "a" "X" "process" none none none)).width <
      2 + 2 * (calcDims (mkNode "a" "X" "process" none none none)).style.padding := by
  decide

/-- Claim C2 (amended): before layout runs the computed fields `x`, `y`,
`width`, `height` of a step are zero; after `calculate_dimensions` the
width satisfies `width ≥ 2·padding` (it is the longest display line plus
`2·padding`) and the height satisfies `height ≥ 1 + 2·padding` (it is
the display line count, always at least one, plus `2·padding`). -/
theorem C2_dims_invariant (node_id label node_type : String)
    (icon description : Option String) (style : Option BoxStyle) (n : Node) :
    ((mkNode node_id label node_type icon description style).x = 0 ∧
     (mkNode node_id label node_type icon description style).y = 0 ∧
     (mkNode node_id label node_type icon description style).width = 0 ∧
     (mkNode node_id label node_type icon description style).height = 0) ∧
    2 * (calcDims n).style.padding ≤ (calcDims n).width ∧
    1 + 2 * (calcDims n).style.padding ≤ (calcDims n).height := by
  refine ⟨⟨rfl, rfl, rfl, rfl⟩, ?_, ?_⟩
  · show 2 * n.style.padding ≤
      ((getDisplayText n).map String.length).foldl max 0 + n.style.padding * 2
    omega
  · show 1 + 2 * n.style.padding ≤ (getDisplayText n).length + n.style.padding * 2
    have := getDisplayText_length_pos n
    omega

/-- Claim C3, counterexample: with label `"X"` and a description that is
a single 31-character word, `get_display_text` emits that word as a line
of length 31, exceeding `max(len(line0), 30) = 30` (the claim asserts no
produced line exceeds that bound). -/
theorem C3_counterexample :
    ∃ l ∈ getDisplayText (mkNode "a" "X" "process" none
        (some "aaaaaaaaaaaaaaaaaaaaaaaaaaaaaaa") none),
      max (firstLine (mkNode "a" "X" "process" none
        (some "aaaaaaaaaaaaaaaaaaaaaaaaaaaaaaa") none)).length 30 < l.length := by
  decide

/-- Claim C3 (amended): for every step whose description is longer than
its label and contains at least one whitespace-delimited word,
`get_display_text` returns more than one line; every produced line is
bounded by `max(max(len(line0), 30), longest word length)` — a single
word longer than the wrap width becomes a line of its own length;
wrapping is greedy over whitespace-delimited words and never splits a
word (the concatenation of the produced word groups is exactly the word
list of the description). -/
theorem C3_wrapping (n : Node) (d : String) (hd : n.description = some d)
    (hlong : n.label.length < d.length) (hwords : pyWords d ≠ []) :
    1 < (getDisplayText n).length ∧
    (∀ l ∈ getDisplayText n,
      l.length ≤ max (max (firstLine n).length 30) (maxWordLen (pyWords d))) ∧
    (wrapGroups (max (firstLine n).length 30) (pyWords d)).flatten = pyWords d := by
  have hdne : d ≠ "" := by
    intro h
    rw [h] at hlong
    simp at hlong
  have hshape := getDisplayText_desc hd hdne
  refine ⟨?_, ?_, wrapGroups_flatten _ _⟩
  · rw [hshape]
    have : wrappedDesc (max (firstLine n).length 30) (pyWords d) ≠ [] := by
      unfold wrappedDesc
      simp only [ne_eq, List.map_eq_nil]
      exact wrapGroups_ne_nil _ hwords
    rcases List.exists_cons_of_ne_nil this with ⟨h1, t1, he⟩
    rw [he]
    simp
  · intro l hl
    rw [hshape] at hl
    rcases List.mem_cons.mp hl with rfl | hl2
    · exact le_max_of_le_left (le_max_left _ _)
    · exact wrappedDesc_bound _ _ (pyWords_ne_empty d) l hl2

/-- Witness for C3_wrapping at a concrete step. -/
theorem C3_wrapping_witness :
    1 < (getDisplayText
      (mkNode "b" "N" "process" none (some "alpha beta gamma") none)).length :=
  (C3_wrapping (mkNode "b" "N" "process" none (some "alpha beta gamma") none)
    "alpha beta gamma" rfl (by decide) (by decide)).1

theorem length_filter_mono {α : Type} (l : List α) (p q : α → Bool)
    (h : ∀ x ∈ l, q x = true → p x = true) :
    (l.filter q).length ≤ (l.filter p).length := by
  rw [← List.countP_eq_length_filter, ← List.countP_eq_length_filter]
  exact List.countP_mono_left h

theorem length_filter_strict {α : Type} (l : List α) (p q : α → Bool)
    (h : ∀ x ∈ l, q x = true → p x = true) {u : α} (hu : u ∈ l)
    (hpu : p u = true) (hqu : q u = false) :
    (l.filter q).length < (l.filter p).length := by
  rw [← List.countP_eq_length_filter, ← List.countP_eq_length_filter]
  obtain ⟨l₁, l₂, rfl⟩ := List.append_of_mem hu
  have h1 := List.countP_mono_left
    (fun a (ha : a ∈ l₁) hq => h a (List.mem_append_left _ ha) hq)
  have h2 := List.countP_mono_left
    (fun a (ha : a ∈ l₂) hq => h a (List.mem_append_right _ (List.mem_cons_of_mem u ha)) hq)
  rw [List.countP_append, List.countP_append, List.countP_cons, List.countP_cons,
    hpu, hqu]
  have e1 : (if (true = true) then (1 : Nat) else 0) = 1 := rfl
  have e2 : (if (false = true) then (1 : Nat) else 0) = 0 := rfl
  rw [e1, e2]
  omega

theorem dfsMeasure_mono (allKeys : List String) {s s' : DfsSt}
    (ht : s'.temp = s.temp) (hv : s.visited ⊆ s'.visited) :
    dfsMeasure allKeys s' ≤ dfsMeasure allKeys s := by
  apply length_filter_mono
  intro x _ hx
  simp only [decide_eq_true_eq] at hx ⊢
  rw [ht] at hx
  exact ⟨hx.1, fun hc => hx.2 (hv hc)⟩

theorem dfsMeasure_cons_temp (allKeys : List String) {s : DfsSt} {u : String}
    (hu : u ∈ allKeys) (hut : u ∉ s.temp) (huv : u ∉ s.visited) :
    dfsMeasure allKeys { s with temp := u :: s.temp } < dfsMeasure allKeys s := by
  refine length_filter_strict allKeys _ _ ?_ hu ?_ ?_
  · intro x _ hx
    simp only [decide_eq_true_eq] at hx ⊢
    exact ⟨fun hc => hx.1 (List.mem_cons_of_mem u hc), hx.2⟩
  · simp only [decide_eq_true_eq]
    exact ⟨hut, huv⟩
  · simp only [decide_eq_false_iff_not, not_and, not_not]
    intro hc
    exact absurd (List.mem_cons_self u s.temp) hc

/-- The main structural lemma of the DFS: with fuel above the measure,
one `visit` call keeps the invariants, restores the stack, and leaves
the visited node finished (unless it was found in progress). -/
theorem dfsVisit_basic (adj : String → List String) (allKeys : List String)
    (hadj : ∀ w v, v ∈ adj w → v ∈ allKeys) :
    ∀ (fuel : Nat) (s : DfsSt) (u : String),
    BasicInv allKeys s → u ∈ allKeys → dfsMeasure allKeys s < fuel →
    DfsPost allKeys s (dfsVisit adj fuel s u) ∧
    (u ∈ (dfsVisit adj fuel s u).visited ∨ u ∈ s.temp) := by
  intro fuel
  induction fuel with
  | zero =>
    intro s u _ _ hf
    exact absurd hf (by omega)
  | succ f ih =>
    have hlist : ∀ (l : List String) (s : DfsSt), (∀ v ∈ l, v ∈ allKeys) →
        BasicInv allKeys s → dfsMeasure allKeys s < f →
        DfsPost allKeys s (dfsNeighbors adj f s l) ∧
        (∀ v ∈ l, v ∈ (dfsNeighbors adj f s l).visited ∨ v ∈ s.temp) := by
      intro l
      induction l with
      | nil =>
        intro s _ hinv _
        simp only [dfsNeighbors]
        refine ⟨⟨hinv, rfl, fun x hx => hx, ⟨[], by simp⟩, le_refl _⟩, ?_⟩
        intro v hv
        cases hv
      | cons v vs ihl =>
        intro s hl hinv hf
        have h1 := ih s v hinv (hl v (List.mem_cons_self v vs)) hf
        obtain ⟨⟨hinv1, ht1, hv1, ⟨t1, hr1⟩, hm1⟩, hu1⟩ := h1
        have hf1 : dfsMeasure allKeys (dfsVisit adj f s v) < f := lt_of_le_of_lt hm1 hf
        have h2 := ihl (dfsVisit adj f s v) (fun x hx => hl x (List.mem_cons_of_mem v hx))
          hinv1 hf1
        obtain ⟨⟨hinv2, ht2, hv2, ⟨t2, hr2⟩, hm2⟩, hu2⟩ := h2
        simp only [dfsNeighbors]
        refine ⟨⟨hinv2, by rw [ht2, ht1], fun x hx => hv2 (hv1 hx),
          ⟨t1 ++ t2, by rw [hr2, hr1, List.append_assoc]⟩, le_trans hm2 hm1⟩, ?_⟩
        intro x hx
        rcases List.mem_cons.mp hx with rfl | hxs
        · rcases hu1 with h | h
          · exact Or.inl (hv2 h)
          · exact Or.inr h
        · rcases hu2 x hxs with h | h
          · exact Or.inl h
          · rw [ht1] at h
            exact Or.inr h
    intro s u hinv hu hf
    by_cases htmp : u ∈ s.temp
    · have hstep : dfsVisit adj (f + 1) s u = s := by
        simp only [dfsVisit]
        rw [if_pos htmp]
      rw [hstep]
      exact ⟨⟨hinv, rfl, fun x hx => hx, ⟨[], by simp⟩, le_refl _⟩, Or.inr htmp⟩
    · by_cases hvis : u ∈ s.visited
      · have hstep : dfsVisit adj (f + 1) s u = s := by
          simp only [dfsVisit]
          rw [if_neg htmp, if_pos hvis]
        rw [hstep]
        exact ⟨⟨hinv, rfl, fun x hx => hx, ⟨[], by simp⟩, le_refl _⟩, Or.inl hvis⟩
      · obtain ⟨hrv, hnd, hvk, htf⟩ := hinv
        have hinv1 : BasicInv allKeys { s with temp := u :: s.temp } := by
          refine ⟨hrv, hnd, hvk, ?_⟩
          intro x hx
          rcases List.mem_cons.mp hx with rfl | hx2
          · exact hvis
          · exact htf x hx2
        have hf1 : dfsMeasure allKeys { s with temp := u :: s.temp } < f := by
          have := dfsMeasure_cons_temp allKeys hu htmp hvis
          omega
        have h2 := hlist (adj u) { s with temp := u :: s.temp }
          (fun v hv => hadj u v hv) hinv1 hf1
        obtain ⟨⟨⟨hrv2, hnd2, hvk2, htf2⟩, ht2, hv2, ⟨t2, hr2⟩, hm2⟩, hu2⟩ := h2
        set s2 := dfsNeighbors adj f { s with temp := u :: s.temp } (adj u) with hs2
        have hueq : s2.temp = u :: s.temp := ht2
        have hunotvis2 : u ∉ s2.visited :=
          htf2 u (by rw [hueq]; exact List.mem_cons_self u s.temp)
        have hunotres2 : u ∉ s2.result := fun hc => hunotvis2 ((hrv2 u).mp hc)
        have hstep : dfsVisit adj (f + 1) s u =
            { visited := u :: s2.visited, temp := s2.temp.erase u,
              result := s2.result ++ [u] } := by
          simp only [dfsVisit]
          rw [if_neg htmp, if_neg hvis]
        rw [hstep]
        have hterase : s2.temp.erase u = s.temp := by
          rw [hueq]
          exact List.erase_cons_head u s.temp
        refine ⟨⟨⟨?_, ?_, ?_, ?_⟩, hterase, ?_, ?_, ?_⟩, Or.inl (List.mem_cons_self _ _)⟩
        · intro x
          simp only [List.mem_append, List.mem_cons, List.not_mem_nil, or_false]
          constructor
          · rintro (hx | rfl)
            · exact Or.inr ((hrv2 x).mp hx)
            · exact Or.inl rfl
          · rintro (rfl | hx)
            · exact Or.inr rfl
            · exact Or.inl ((hrv2 x).mpr hx)
        · rw [List.nodup_append]
          exact ⟨hnd2, List.nodup_singleton u, by simpa using hunotres2⟩
        · intro x hx
          rcases List.mem_cons.mp hx with rfl | hx2
          · exact hu
          · exact hvk2 x hx2
        · intro x hx
          rw [hterase] at hx
          intro hc
          rcases List.mem_cons.mp hc with rfl | hc2
          · exact htmp hx
          · exact htf2 x (by rw [hueq]; exact List.mem_cons_of_mem u hx) hc2
        · intro x hx
          exact List.mem_cons_of_mem u (hv2 hx)
        · exact ⟨t2 ++ [u], by rw [hr2]; simp⟩
        · refine dfsMeasure_mono allKeys hterase ?_
          intro x hx
          exact List.mem_cons_of_mem u (hv2 hx)

/-- The outer `for node_id in self.nodes` loop of `_topological_sort`:
every listed id ends up visited, the stack returns empty, invariants
hold. -/
theorem dfsOuterFold (adj : String → List String) (allKeys : List String)
    (hadj : ∀ w v, v ∈ adj w → v ∈ allKeys) (fuel : Nat) :
    ∀ (ks : List String) (s : DfsSt),
    (∀ v ∈ ks, v ∈ allKeys) → BasicInv allKeys s → s.temp = [] →
    dfsMeasure allKeys s < fuel →
    BasicInv allKeys
      (ks.foldl (fun s u => if u ∈ s.visited then s else dfsVisit adj fuel s u) s) ∧
    (ks.foldl (fun s u => if u ∈ s.visited then s else dfsVisit adj fuel s u) s).temp = [] ∧
    s.visited ⊆
      (ks.foldl (fun s u => if u ∈ s.visited then s else dfsVisit adj fuel s u) s).visited ∧
    (∀ v ∈ ks,
      v ∈ (ks.foldl (fun s u => if u ∈ s.visited then s else dfsVisit adj fuel s u) s).visited) ∧
    dfsMeasure allKeys
      (ks.foldl (fun s u => if u ∈ s.visited then s else dfsVisit adj fuel s u) s) ≤
      dfsMeasure allKeys s := by
  intro ks
  induction ks with
  | nil =>
    intro s _ hinv ht _
    exact ⟨hinv, ht, fun x hx => hx, fun v hv => absurd hv (List.not_mem_nil v), le_refl _⟩
  | cons u ks ih =>
    intro s hks hinv ht hf
    simp only [List.foldl_cons]
    by_cases hvis : u ∈ s.visited
    · rw [if_pos hvis]
      obtain ⟨i1, i2, i3, i4, i5⟩ := ih s (fun v hv => hks v (List.mem_cons_of_mem u hv))
        hinv ht hf
      exact ⟨i1, i2, i3, fun v hv => (List.mem_cons.mp hv).elim
        (fun he => he ▸ i3 hvis) (fun hm => i4 v hm), i5⟩
    · rw [if_neg hvis]
      obtain ⟨⟨binv, btemp, bvis, _, bmeas⟩, bmem⟩ :=
        dfsVisit_basic adj allKeys hadj fuel s u hinv (hks u (List.mem_cons_self u ks)) hf
      have hmem : u ∈ (dfsVisit adj fuel s u).visited := by
        rcases bmem with h | h
        · exact h
        · rw [ht] at h
          cases h
      obtain ⟨i1, i2, i3, i4, i5⟩ := ih (dfsVisit adj fuel s u)
        (fun v hv => hks v (List.mem_cons_of_mem u hv)) binv (by rw [btemp, ht])
        (lt_of_le_of_lt bmeas hf)
      refine ⟨i1, i2, fun x hx => i3 (bvis hx), ?_, le_trans i5 bmeas⟩
      intro v hv
      rcases List.mem_cons.mp hv with rfl | hm
      · exact i3 hmem
      · exact i4 v hm

theorem adjacencyOf_keys (keys : List String) (conns : List Conn) :
    ∀ w v, v ∈ adjacencyOf keys conns w → v ∈ keys := by
  intro w v hv
  unfold adjacencyOf at hv
  by_cases hw : w ∈ keys
  · rw [if_pos hw] at hv
    rcases List.mem_map.mp hv with ⟨c, hc, rfl⟩
    have := (List.mem_filter.mp hc).2
    have h2 := (Bool.and_eq_true _ _).mp this
    have := h2.2
    simpa [List.contains_iff_exists_mem_beq, beq_iff_eq] using this
  · rw [if_neg hw] at hv
    cases hv

/-- The DFS state after the whole of `_topological_sort` has run. -/
theorem topoSortState (keys : List String) (conns : List Conn) :
    BasicInv keys
      (keys.foldl (fun s u => if u ∈ s.visited then s
        else dfsVisit (adjacencyOf keys conns) (keys.length + 1) s u) ⟨[], [], []⟩) ∧
    (∀ v ∈ keys,
      v ∈ (keys.foldl (fun s u => if u ∈ s.visited then s
        else dfsVisit (adjacencyOf keys conns) (keys.length + 1) s u) ⟨[], [], []⟩).visited) := by
  have h0 : BasicInv keys (⟨[], [], []⟩ : DfsSt) := by
    refine ⟨fun x => Iff.rfl, List.nodup_nil, ?_, ?_⟩
    · intro x hx
      cases hx
    · intro x hx
      cases hx
  have hm0 : dfsMeasure keys (⟨[], [], []⟩ : DfsSt) < keys.length + 1 := by
    have := List.length_filter_le
      (fun w => decide (w ∉ (⟨[], [], []⟩ : DfsSt).temp ∧ w ∉ (⟨[], [], []⟩ : DfsSt).visited))
      keys
    unfold dfsMeasure
    omega
  obtain ⟨i1, _, _, i4, _⟩ := dfsOuterFold (adjacencyOf keys conns) keys
    (adjacencyOf_keys keys conns) (keys.length + 1) keys ⟨[], [], []⟩
    (fun v hv => hv) h0 rfl hm0
  exact ⟨i1, i4⟩

/-- `_topological_sort` returns every node id exactly once. -/
theorem topologicalSort_perm (keys : List String) (conns : List Conn)
    (hnd : keys.Nodup) : (topologicalSort keys conns).Perm keys := by
  obtain ⟨⟨hrv, hndr, hvk, _⟩, hcov⟩ := topoSortState keys conns
  show (List.reverse _).Perm keys
  refine List.Perm.trans (List.reverse_perm _) ?_
  refine (List.Nodup.subperm hndr ?_).antisymm (List.Nodup.subperm hnd ?_)
  · intro x hx
    exact hvk x ((hrv x).mp hx)
  · intro x hx
    exact (hrv x).mpr (hcov x hx)

theorem Before_append {v w : String} {l t : List String} (h : Before v w l) :
    Before v w (l ++ t) := by
  obtain ⟨l₁, l₂, rfl, hv⟩ := h
  exact ⟨l₁, l₂ ++ t, by simp, hv⟩

/-- The structural guarantees of the inner neighbor loop, for reuse. -/
theorem dfsNeighborsPost (adj : String → List String) (allKeys : List String)
    (hadj : ∀ w v, v ∈ adj w → v ∈ allKeys) (fuel : Nat) :
    ∀ (l : List String) (s : DfsSt), BasicInv allKeys s →
    dfsMeasure allKeys s < fuel → (∀ v ∈ l, v ∈ allKeys) →
    DfsPost allKeys s (dfsNeighbors adj fuel s l) := by
  intro l
  induction l with
  | nil =>
    intro s hinv _ _
    simp only [dfsNeighbors]
    exact ⟨hinv, rfl, fun x hx => hx, ⟨[], by simp⟩, le_refl _⟩
  | cons v vs ihl =>
    intro s hinv hf hl
    obtain ⟨⟨binv1, btemp1, bvis1, ⟨t1, hr1⟩, bmeas1⟩, _⟩ :=
      dfsVisit_basic adj allKeys hadj fuel s v hinv (hl v (List.mem_cons_self v vs)) hf
    obtain ⟨binv2, btemp2, bvis2, ⟨t2, hr2⟩, bmeas2⟩ := ihl (dfsVisit adj fuel s v)
      binv1 (lt_of_le_of_lt bmeas1 hf) (fun x hx => hl x (List.mem_cons_of_mem v hx))
    simp only [dfsNeighbors]
    exact ⟨binv2, by rw [btemp2, btemp1], fun x hx => bvis2 (bvis1 hx),
      ⟨t1 ++ t2, by rw [hr2, hr1, List.append_assoc]⟩, le_trans bmeas2 bmeas1⟩

/-- The ordering lemma of the DFS under an acyclicity certificate: when
every connection increases `rank`, a visit leaves every out-neighbor of
every finished node strictly earlier in the post-order list. -/
theorem dfsVisit_topo (adj : String → List String) (allKeys : List String)
    (rank : String → Nat)
    (hadj : ∀ w v, v ∈ adj w → v ∈ allKeys)
    (hrank : ∀ w v, v ∈ adj w → rank w < rank v) :
    ∀ (fuel : Nat) (s : DfsSt) (u : String),
    BasicInv allKeys s → TopoInv adj s → (∀ x ∈ s.temp, rank x < rank u) →
    u ∈ allKeys → dfsMeasure allKeys s < fuel →
    TopoInv adj (dfsVisit adj fuel s u) ∧ u ∈ (dfsVisit adj fuel s u).visited := by
  intro fuel
  induction fuel with
  | zero =>
    intro s u _ _ _ _ hf
    exact absurd hf (by omega)
  | succ f ih =>
    have hlist : ∀ (l : List String) (s : DfsSt), (∀ v ∈ l, v ∈ allKeys) →
        (∀ v ∈ l, ∀ x ∈ s.temp, rank x < rank v) →
        BasicInv allKeys s → TopoInv adj s → dfsMeasure allKeys s < f →
        TopoInv adj (dfsNeighbors adj f s l) ∧
        (∀ v ∈ l, v ∈ (dfsNeighbors adj f s l).visited) := by
      intro l
      induction l with
      | nil =>
        intro s _ _ _ htopo _
        simp only [dfsNeighbors]
        exact ⟨htopo, fun v hv => absurd hv (List.not_mem_nil v)⟩
      | cons v vs ihl =>
        intro s hl hrk hinv htopo hf
        obtain ⟨⟨binv1, btemp1, bvis1, _, bmeas1⟩, _⟩ :=
          dfsVisit_basic adj allKeys hadj f s v hinv (hl v (List.mem_cons_self v vs)) hf
        obtain ⟨topo1, humem1⟩ := ih s v hinv htopo
          (hrk v (List.mem_cons_self v vs)) (hl v (List.mem_cons_self v vs)) hf
        obtain ⟨topo2, hmem2⟩ := ihl (dfsVisit adj f s v)
          (fun x hx => hl x (List.mem_cons_of_mem v hx))
          (by
            intro x hx y hy
            rw [btemp1] at hy
            exact hrk x (List.mem_cons_of_mem v hx) y hy)
          binv1 topo1 (lt_of_le_of_lt bmeas1 hf)
        obtain ⟨⟨_, btemp2, bvis2, _, _⟩, _⟩ :=
          dfsVisit_basic adj allKeys hadj f s v hinv (hl v (List.mem_cons_self v vs)) hf
        simp only [dfsNeighbors]
        refine ⟨topo2, ?_⟩
        intro x hx
        rcases List.mem_cons.mp hx with heq | hxs
        · -- x = v : visited after its own call, monotone through the rest
          subst heq
          obtain ⟨_, _, bvisr, _, _⟩ :=
            dfsNeighborsPost adj allKeys hadj f vs (dfsVisit adj f s x) binv1
              (lt_of_le_of_lt bmeas1 hf) (fun y hy => hl y (List.mem_cons_of_mem x hy))
          exact bvisr humem1
        · exact hmem2 x hxs
    intro s u hinv htopo hrk hu hf
    by_cases htmp : u ∈ s.temp
    · exact absurd (hrk u htmp) (lt_irrefl _)
    · by_cases hvis : u ∈ s.visited
      · have hstep : dfsVisit adj (f + 1) s u = s := by
          simp only [dfsVisit]
          rw [if_neg htmp, if_pos hvis]
        rw [hstep]
        exact ⟨htopo, hvis⟩
      · obtain ⟨hrv, hnd, hvk, htf⟩ := hinv
        have hinv1 : BasicInv allKeys { s with temp := u :: s.temp } := by
          refine ⟨hrv, hnd, hvk, ?_⟩
          intro x hx
          rcases List.mem_cons.mp hx with rfl | hx2
          · exact hvis
          · exact htf x hx2
        have hf1 : dfsMeasure allKeys { s with temp := u :: s.temp } < f := by
          have := dfsMeasure_cons_temp allKeys hu htmp hvis
          omega
        have htopo1 : TopoInv adj { s with temp := u :: s.temp } := htopo
        have hrk1 : ∀ v ∈ adj u, ∀ x ∈ ({ s with temp := u :: s.temp } : DfsSt).temp,
            rank x < rank v := by
          intro v hv x hx
          rcases List.mem_cons.mp hx with rfl | hx2
          · exact hrank x v hv
          · exact lt_trans (hrk x hx2) (hrank u v hv)
        obtain ⟨topo2, hmem2⟩ := hlist (adj u) { s with temp := u :: s.temp }
          (fun v hv => hadj u v hv) hrk1 hinv1 htopo1 hf1
        obtain ⟨⟨hrv2, _, _, _⟩, ht2, _, _, _⟩ :=
          dfsNeighborsPost adj allKeys hadj f (adj u) { s with temp := u :: s.temp }
            hinv1 hf1 (fun v hv => hadj u v hv)
        set s2 := dfsNeighbors adj f { s with temp := u :: s.temp } (adj u) with hs2
        have hstep : dfsVisit adj (f + 1) s u =
            { visited := u :: s2.visited, temp := s2.temp.erase u,
              result := s2.result ++ [u] } := by
          simp only [dfsVisit]
          rw [if_neg htmp, if_neg hvis]
        rw [hstep]
        constructor
        · intro w v hw hv
          rcases List.mem_cons.mp hw with rfl | hw2
          · -- w = u : its neighbors were all finished by the inner loop
            have hvmem : v ∈ s2.visited := hmem2 v hv
            have hvres : v ∈ s2.result := (hrv2 v).mpr hvmem
            exact ⟨List.mem_append_left _ hvres, ⟨s2.result, [], rfl, hvres⟩⟩
          · obtain ⟨hvr, hb⟩ := topo2 w v hw2 hv
            exact ⟨List.mem_append_left _ hvr, Before_append hb⟩
        · exact List.mem_cons_self _ _

/-- The outer DFS loop keeps the ordering invariant. -/
theorem dfsOuterFold_topo (adj : String → List String) (allKeys : List String)
    (rank : String → Nat)
    (hadj : ∀ w v, v ∈ adj w → v ∈ allKeys)
    (hrank : ∀ w v, v ∈ adj w → rank w < rank v) (fuel : Nat) :
    ∀ (ks : List String) (s : DfsSt),
    (∀ v ∈ ks, v ∈ allKeys) → BasicInv allKeys s → TopoInv adj s → s.temp = [] →
    dfsMeasure allKeys s < fuel →
    TopoInv adj
      (ks.foldl (fun s u => if u ∈ s.visited then s else dfsVisit adj fuel s u) s) := by
  intro ks
  induction ks with
  | nil =>
    intro s _ _ htopo _ _
    exact htopo
  | cons u ks ih =>
    intro s hks hinv htopo ht hf
    simp only [List.foldl_cons]
    by_cases hvis : u ∈ s.visited
    · rw [if_pos hvis]
      exact ih s (fun v hv => hks v (List.mem_cons_of_mem u hv)) hinv htopo ht hf
    · rw [if_neg hvis]
      obtain ⟨⟨binv, btemp, _, _, bmeas⟩, _⟩ :=
        dfsVisit_basic adj allKeys hadj fuel s u hinv (hks u (List.mem_cons_self u ks)) hf
      have hrk : ∀ x ∈ s.temp, rank x < rank u := by
        rw [ht]
        intro x hx
        cases hx
      obtain ⟨topo1, _⟩ := dfsVisit_topo adj allKeys rank hadj hrank fuel s u hinv htopo
        hrk (hks u (List.mem_cons_self u ks)) hf
      exact ih (dfsVisit adj fuel s u) (fun v hv => hks v (List.mem_cons_of_mem u hv))
        binv topo1 (by rw [btemp, ht]) (lt_of_le_of_lt bmeas hf)

theorem before_reverse {v u : String} {l : List String} (h : Before v u l) :
    ∃ A B, l.reverse = A ++ u :: B ∧ v ∈ B := by
  obtain ⟨l₁, l₂, rfl, hv⟩ := h
  refine ⟨l₂.reverse, l₁.reverse, ?_, List.mem_reverse.mpr hv⟩
  rw [List.reverse_append, List.reverse_cons, List.append_assoc]
  simp

theorem lookup_append_single {β : Type} (m : List (String × β)) (u : String) (val : β)
    {k : String} (h : k ≠ u) : (m ++ [(u, val)]).lookup k = m.lookup k := by
  induction m with
  | nil =>
    have hb : (k == u) = false := beq_false_of_ne h
    simp [List.lookup, hb]
  | cons p t ih =>
    cases hb : (k == p.1) with
    | true => simp [List.lookup, hb]
    | false => simp [List.lookup, hb, ih]

theorem lookup_map_set {β : Type} (m : List (String × β)) (u : String) (val : β)
    {k : String} (h : k ≠ u) :
    (m.map (fun p => if p.1 = u then (u, val) else p)).lookup k = m.lookup k := by
  induction m with
  | nil => rfl
  | cons p t ih =>
    by_cases hp : p.1 = u
    · have h1 : (k == u) = false := beq_false_of_ne h
      have h2 : (k == p.1) = false := by
        rw [hp]
        exact h1
      rw [List.map_cons, if_pos hp]
      simp [List.lookup, h1, h2, ih]
    · rw [List.map_cons, if_neg hp]
      cases hk : (k == p.1) with
      | true => simp [List.lookup, hk]
      | false => simp [List.lookup, hk, ih]

theorem levelSet_lookup_other (m : List (String × Nat)) (u : String) (val : Nat)
    {k : String} (h : k ≠ u) : (levelSet m u val).lookup k = m.lookup k := by
  unfold levelSet
  by_cases hany : m.any (fun p => p.1 == u)
  · rw [if_pos hany]
    exact lookup_map_set m u val h
  · rw [if_neg hany]
    exact lookup_append_single m u val h

theorem lookup_none_of_not_any {β : Type} (m : List (String × β)) (u : String)
    (h : ¬ m.any (fun p => p.1 == u)) : m.lookup u = none := by
  induction m with
  | nil => rfl
  | cons p t ih =>
    simp only [List.any_cons, Bool.or_eq_true, not_or] at h
    have hb : (u == p.1) = false := by
      refine beq_false_of_ne ?_
      intro hc
      exact h.1 (by simp [hc])
    simp only [List.lookup, hb]
    exact ih h.2

theorem lookup_map_set_self {β : Type} (m : List (String × β)) (u : String) (val : β)
    (h : m.any (fun p => p.1 == u)) :
    (m.map (fun p => if p.1 = u then (u, val) else p)).lookup u = some val := by
  induction m with
  | nil => cases h
  | cons p t ih =>
    by_cases hp : p.1 = u
    · rw [List.map_cons, if_pos hp]
      simp [List.lookup]
    · rw [List.map_cons, if_neg hp]
      have hb : (u == p.1) = false := beq_false_of_ne (fun hc => hp hc.symm)
      simp only [List.any_cons, Bool.or_eq_true] at h
      rcases h with h1 | h2
      · exact absurd (by simpa using h1) hp
      · simp [List.lookup, hb]
        exact ih h2

theorem levelSet_lookup_self (m : List (String × Nat)) (u : String) (val : Nat) :
    (levelSet m u val).lookup u = some val := by
  unfold levelSet
  by_cases hany : m.any (fun p => p.1 == u)
  · rw [if_pos hany]
    exact lookup_map_set_self m u val hany
  · rw [if_neg hany]
    induction m with
    | nil => simp [List.lookup]
    | cons p t ih =>
      simp only [List.any_cons, Bool.or_eq_true, not_or] at hany
      have hb : (u == p.1) = false := by
        refine beq_false_of_ne ?_
        intro hc
        exact hany.1 (by simp [hc])
      simp [List.lookup, hb]
      exact ih hany.2

/-- Folding the level assignment over ids not containing `k` leaves
`k`'s binding unchanged. -/
theorem nodeToLevelFold_persist (revAdj : String → List String) (l : List String)
    (acc : List (String × Nat)) {k : String} (hk : k ∉ l) :
    (l.foldl (fun a u => levelSet a u (levelValue revAdj a u)) acc).lookup k =
      acc.lookup k := by
  induction l generalizing acc with
  | nil => rfl
  | cons u t ih =>
    simp only [List.foldl_cons]
    rw [ih _ (fun hc => hk (List.mem_cons_of_mem u hc))]
    exact levelSet_lookup_other _ _ _ (fun hc => hk (hc ▸ List.mem_cons_self u t))

/-- A step's level strictly exceeds the known level of each of its
sources at assignment time. -/
theorem levelValue_gt (revAdj : String → List String) (acc : List (String × Nat))
    (v u : String) (hu : u ∈ revAdj v) :
    (acc.lookup u).getD 0 < levelValue revAdj acc v := by
  unfold levelValue
  have hne : revAdj v ≠ [] := by
    intro h
    rw [h] at hu
    cases hu
  rw [if_neg hne]
  have h2 : (acc.lookup u).getD 0 ≤
      ((revAdj v).map fun dep => (acc.lookup dep).getD 0).foldl max 0 :=
    mem_le_foldl_max ((revAdj v).map fun dep => (acc.lookup dep).getD 0) 0
      (List.mem_map_of_mem (fun dep => (acc.lookup dep).getD 0) hu)
  omega

/-- In a topological ordering where `u` comes strictly before `v`, and
`u` is a source of `v`, the assigned levels satisfy `level u < level v`. -/
theorem nodeToLevel_lt (revAdj : String → List String) (ordered : List String)
    (hnd : ordered.Nodup) {u v : String}
    (hsplit : ∃ A B, ordered = A ++ u :: B ∧ v ∈ B) (hrev : u ∈ revAdj v) :
    ∃ lu lv, (nodeToLevel revAdj ordered).lookup u = some lu ∧
      (nodeToLevel revAdj ordered).lookup v = some lv ∧ lu < lv := by
  obtain ⟨A, B, rfl, hvB⟩ := hsplit
  obtain ⟨B₁, B₂, rfl⟩ := List.append_of_mem hvB
  -- u does not reappear after its own position, v not after its own
  have hndu := hnd
  rw [List.nodup_append] at hndu
  obtain ⟨_, hndB, hdisj⟩ := hndu
  have huB : u ∉ B₁ ++ v :: B₂ := (List.nodup_cons.mp hndB).1
  have hndB2 := (List.nodup_cons.mp hndB).2
  rw [List.nodup_append] at hndB2
  have hvB2 : v ∉ B₂ := (List.nodup_cons.mp hndB2.2.1).1
  have huneq : u ≠ v := by
    intro he
    exact huB (he ▸ hvB)
  have huB1 : u ∉ B₁ := fun hc => huB (List.mem_append_left _ hc)
  have huB2 : u ∉ B₂ := fun hc => huB (List.mem_append_right _ (List.mem_cons_of_mem v hc))
  -- unroll the fold along A ++ u :: B₁ ++ v :: B₂
  unfold nodeToLevel
  rw [List.foldl_append]
  simp only [List.foldl_cons]
  rw [List.foldl_append]
  simp only [List.foldl_cons]
  set acc0 := A.foldl (fun a x => levelSet a x (levelValue revAdj a x)) [] with hacc0
  set lu := levelValue revAdj acc0 u with hlu
  set acc1 := levelSet acc0 u lu with hacc1
  set acc2 := B₁.foldl (fun a x => levelSet a x (levelValue revAdj a x)) acc1 with hacc2
  set lv := levelValue revAdj acc2 v with hlv
  set acc3 := levelSet acc2 v lv with hacc3
  have hu1 : acc1.lookup u = some lu := levelSet_lookup_self acc0 u lu
  have hu2 : acc2.lookup u = some lu := by
    rw [hacc2, nodeToLevelFold_persist revAdj B₁ acc1 huB1]
    exact hu1
  have hu3 : acc3.lookup u = some lu := by
    rw [hacc3, levelSet_lookup_other acc2 v lv huneq]
    exact hu2
  have hv3 : acc3.lookup v = some lv := levelSet_lookup_self acc2 v lv
  refine ⟨lu, lv, ?_, ?_, ?_⟩
  · rw [nodeToLevelFold_persist revAdj B₂ acc3 huB2]
    exact hu3
  · rw [nodeToLevelFold_persist revAdj B₂ acc3 hvB2]
    exact hv3
  · have := levelValue_gt revAdj acc2 v u hrev
    rw [hu2] at this
    simpa using this

theorem mem_adjacencyOf {keys : List String} {conns : List Conn} {c : Conn}
    (hc : c ∈ conns) (hs : c.source ∈ keys) (ht : c.target ∈ keys) :
    c.target ∈ adjacencyOf keys conns c.source := by
  unfold adjacencyOf
  rw [if_pos hs]
  refine List.mem_map.mpr ⟨c, List.mem_filter.mpr ⟨hc, ?_⟩, rfl⟩
  rw [Bool.and_eq_true]
  constructor
  · exact beq_self_eq_true c.source
  · exact List.contains_iff_exists_mem_beq.mpr ⟨c.target, ht, beq_self_eq_true _⟩

theorem mem_revAdjacencyOf {keys : List String} {conns : List Conn} {c : Conn}
    (hc : c ∈ conns) (hs : c.source ∈ keys) (ht : c.target ∈ keys) :
    c.source ∈ revAdjacencyOf keys conns c.target := by
  unfold revAdjacencyOf
  rw [if_pos ht]
  refine List.mem_map.mpr ⟨c, List.mem_filter.mpr ⟨hc, ?_⟩, rfl⟩
  rw [Bool.and_eq_true]
  constructor
  · exact beq_self_eq_true c.target
  · exact List.contains_iff_exists_mem_beq.mpr ⟨c.source, hs, beq_self_eq_true _⟩

theorem adjacencyOf_rank (keys : List String) (conns : List Conn) (rank : String → Nat)
    (hdag : ∀ c ∈ conns, c.source ∈ keys → c.target ∈ keys →
      rank c.source < rank c.target) :
    ∀ x v, v ∈ adjacencyOf keys conns x → rank x < rank v := by
  intro x v hv
  unfold adjacencyOf at hv
  by_cases hx : x ∈ keys
  · rw [if_pos hx] at hv
    rcases List.mem_map.mp hv with ⟨c, hcf, rfl⟩
    obtain ⟨hcm, hcond⟩ := List.mem_filter.mp hcf
    rw [Bool.and_eq_true] at hcond
    have hsrc : c.source = x := by simpa using hcond.1
    have htgt : c.target ∈ keys := by
      simpa [List.contains_iff_exists_mem_beq] using hcond.2
    have := hdag c hcm (hsrc ▸ hx) htgt
    rw [hsrc] at this
    exact this
  · rw [if_neg hx] at hv
    cases hv

/-- Claim C5: for a workflow whose valid edges form a DAG — certified by
a rank function that strictly increases along every valid connection —
the level assigned to each connection's target strictly exceeds the
level assigned to its source. -/
theorem C5_dag_level_monotone (w : Workflow) (rank : String → Nat)
    (hdag : ∀ c ∈ w.connections, c.source ∈ nodeKeys w → c.target ∈ nodeKeys w →
      rank c.source < rank c.target)
    (c : Conn) (hc : c ∈ w.connections) (hs : c.source ∈ nodeKeys w)
    (ht : c.target ∈ nodeKeys w) :
    ∃ lu lv,
      (nodeToLevel (revAdjacencyOf (nodeKeys w) w.connections)
          (topologicalSort (nodeKeys w) w.connections)).lookup c.source = some lu ∧
      (nodeToLevel (revAdjacencyOf (nodeKeys w) w.connections)
          (topologicalSort (nodeKeys w) w.connections)).lookup c.target = some lv ∧
      lu < lv := by
  have hadj := adjacencyOf_keys (nodeKeys w) w.connections
  have hrank := adjacencyOf_rank (nodeKeys w) w.connections rank hdag
  have h0 : BasicInv (nodeKeys w) (⟨[], [], []⟩ : DfsSt) := by
    refine ⟨fun x => Iff.rfl, List.nodup_nil, ?_, ?_⟩
    · intro x hx
      cases hx
    · intro x hx
      cases hx
  have htopo0 : TopoInv (adjacencyOf (nodeKeys w) w.connections) (⟨[], [], []⟩ : DfsSt) := by
    intro x v hx _
    cases hx
  have hm0 : dfsMeasure (nodeKeys w) (⟨[], [], []⟩ : DfsSt) < (nodeKeys w).length + 1 := by
    have := List.length_filter_le
      (fun x => decide (x ∉ (⟨[], [], []⟩ : DfsSt).temp ∧ x ∉ (⟨[], [], []⟩ : DfsSt).visited))
      (nodeKeys w)
    unfold dfsMeasure
    omega
  obtain ⟨⟨hrv, hndr, _, _⟩, hcov⟩ := topoSortState (nodeKeys w) w.connections
  have htopo := dfsOuterFold_topo (adjacencyOf (nodeKeys w) w.connections) (nodeKeys w)
    rank hadj hrank ((nodeKeys w).length + 1) (nodeKeys w) ⟨[], [], []⟩
    (fun v hv => hv) h0 htopo0 rfl hm0
  have hmemadj : c.target ∈ adjacencyOf (nodeKeys w) w.connections c.source :=
    mem_adjacencyOf hc hs ht
  obtain ⟨_, hbefore⟩ := htopo c.source c.target (hcov c.source hs) hmemadj
  obtain ⟨A, B, hAB, hvB⟩ := before_reverse hbefore
  have hnd : (topologicalSort (nodeKeys w) w.connections).Nodup :=
    List.nodup_reverse.mpr hndr
  exact nodeToLevel_lt (revAdjacencyOf (nodeKeys w) w.connections)
    (topologicalSort (nodeKeys w) w.connections) hnd ⟨A, B, hAB, hvB⟩
    (mem_revAdjacencyOf hc hs ht)

/-- Witness for C5_dag_level_monotone on the concrete workflow
`a → b`. -/
theorem C5_witness :
    ∃ lu lv,
      (nodeToLevel (revAdjacencyOf (nodeKeys sampleDag) sampleDag.connections)
          (topologicalSort (nodeKeys sampleDag) sampleDag.connections)).lookup
        (mkConnection "a" "b" "normal" none).source = some lu ∧
      (nodeToLevel (revAdjacencyOf (nodeKeys sampleDag) sampleDag.connections)
          (topologicalSort (nodeKeys sampleDag) sampleDag.connections)).lookup
        (mkConnection "a" "b" "normal" none).target = some lv ∧
      lu < lv :=
  C5_dag_level_monotone sampleDag (fun s => if s = "a" then 0 else 1)
    (by decide) (mkConnection "a" "b" "normal" none) (by decide) (by decide) (by decide)

theorem any_key_iff {α β : Type} [BEq α] [LawfulBEq α] (m : List (α × β)) (u : α) :
    m.any (fun p => p.1 == u) = true ↔ u ∈ m.map Prod.fst := by
  rw [List.any_eq_true]
  constructor
  · rintro ⟨p, hp, he⟩
    exact List.mem_map.mpr ⟨p, hp, by simpa using he⟩
  · intro hm
    rcases List.mem_map.mp hm with ⟨p, hp, he⟩
    exact ⟨p, hp, by simp [he]⟩

/-- Folding the level assignment over fresh, duplicate-free ids appends
one binding per id, in order. -/
theorem nodeToLevelFold_keys (revAdj : String → List String) :
    ∀ (l : List String) (acc : List (String × Nat)),
    (∀ u ∈ l, u ∉ acc.map Prod.fst) → l.Nodup →
    (l.foldl (fun a u => levelSet a u (levelValue revAdj a u)) acc).map Prod.fst =
      acc.map Prod.fst ++ l := by
  intro l
  induction l with
  | nil =>
    intro acc _ _
    simp
  | cons u t ih =>
    intro acc hfresh hnd
    simp only [List.foldl_cons]
    have hany : ¬ acc.any (fun p => p.1 == u) = true := by
      intro hc
      exact hfresh u (List.mem_cons_self u t) ((any_key_iff acc u).mp hc)
    have hset : levelSet acc u (levelValue revAdj acc u) = acc ++ [(u, levelValue revAdj acc u)] := by
      unfold levelSet
      rw [if_neg hany]
    rw [hset, ih (acc ++ [(u, levelValue revAdj acc u)]) ?_ (List.Nodup.of_cons hnd)]
    · simp
    · intro x hx
      simp only [List.map_append, List.mem_append, List.map_cons, List.map_nil,
        List.mem_singleton, not_or]
      constructor
      · exact fun hc => hfresh x (List.mem_cons_of_mem u hx) hc
      · intro hc
        rw [hc] at hx
        exact (List.nodup_cons.mp hnd).1 hx

/-- `node_to_level` binds exactly the ordered ids, in order. -/
theorem nodeToLevel_keys (revAdj : String → List String) (ordered : List String)
    (hnd : ordered.Nodup) :
    (nodeToLevel revAdj ordered).map Prod.fst = ordered := by
  unfold nodeToLevel
  have := nodeToLevelFold_keys revAdj ordered [] (by
    intro u _ hc
    cases hc) hnd
  simpa using this

theorem mapUpdate_id (m : List (Nat × List String)) (l : Nat) (id : String)
    (h : ∀ p ∈ m, p.1 ≠ l) :
    m.map (fun p => if p.1 = l then (p.1, p.2 ++ [id]) else p) = m := by
  induction m with
  | nil => rfl
  | cons p t ih =>
    rw [List.map_cons, if_neg (h p (List.mem_cons_self p t)),
      ih (fun q hq => h q (List.mem_cons_of_mem p hq))]

theorem groupSet_keys (m : List (Nat × List String)) (l : Nat) (id : String) :
    (groupSet m l id).map Prod.fst = m.map Prod.fst ∨
    (groupSet m l id).map Prod.fst = m.map Prod.fst ++ [l] := by
  unfold groupSet
  by_cases hany : m.any (fun p => p.1 == l) = true
  · rw [if_pos hany]
    left
    rw [List.map_map]
    apply List.map_congr_left
    intro p _
    by_cases hp : p.1 = l
    · simp [hp]
    · simp [hp]
  · rw [if_neg hany]
    right
    simp

theorem groupSet_flat_update (l : Nat) (id : String) :
    ∀ (m : List (Nat × List String)), (m.map Prod.fst).Nodup →
    m.any (fun p => p.1 == l) = true →
    ((m.map (fun p => if p.1 = l then (p.1, p.2 ++ [id]) else p)).flatMap Prod.snd).Perm
      (id :: m.flatMap Prod.snd) := by
  intro m
  induction m with
  | nil =>
    intro _ hany
    cases hany
  | cons p t ih =>
    intro hnd hany
    have hnd' := hnd
    rw [List.map_cons, List.nodup_cons] at hnd'
    by_cases hp : p.1 = l
    · have hrest : ∀ q ∈ t, q.1 ≠ l := by
        intro q hq he
        apply hnd'.1
        rw [hp, ← he]
        exact List.mem_map_of_mem Prod.fst hq
      rw [List.map_cons, if_pos hp, mapUpdate_id t l id hrest]
      simp only [List.flatMap_cons]
      exact (List.perm_append_singleton id p.2).append_right (t.flatMap Prod.snd)
    · have hany2 : t.any (fun q => q.1 == l) = true := by
        rcases List.any_eq_true.mp hany with ⟨q, hq, he⟩
        rcases List.mem_cons.mp hq with rfl | hq2
        · exact absurd (by simpa using he) hp
        · exact List.any_eq_true.mpr ⟨q, hq2, he⟩
      have iht := ih hnd'.2 hany2
      rw [List.map_cons, if_neg hp]
      simp only [List.flatMap_cons]
      exact List.Perm.trans (iht.append_left p.2) List.perm_middle

theorem groupSet_flat (m : List (Nat × List String)) (l : Nat) (id : String)
    (hnd : (m.map Prod.fst).Nodup) :
    ((groupSet m l id).flatMap Prod.snd).Perm (id :: m.flatMap Prod.snd) := by
  unfold groupSet
  by_cases hany : m.any (fun p => p.1 == l) = true
  · rw [if_pos hany]
    exact groupSet_flat_update l id m hnd hany
  · rw [if_neg hany]
    rw [List.flatMap_append]
    simp only [List.flatMap_cons, List.flatMap_nil, List.append_nil]
    exact List.perm_append_singleton id (m.flatMap Prod.snd)

theorem groupSet_keys_nodup (m : List (Nat × List String)) (l : Nat) (id : String)
    (hnd : (m.map Prod.fst).Nodup) : ((groupSet m l id).map Prod.fst).Nodup := by
  unfold groupSet
  by_cases hany : m.any (fun p => p.1 == l) = true
  · rw [if_pos hany]
    have he : ((m.map (fun p => if p.1 = l then (p.1, p.2 ++ [id]) else p)).map Prod.fst) =
        m.map Prod.fst := by
      rw [List.map_map]
      apply List.map_congr_left
      intro p _
      by_cases hp : p.1 = l <;> simp [hp]
    rw [he]
    exact hnd
  · rw [if_neg hany]
    have hl : l ∉ m.map Prod.fst := fun hc => hany ((any_key_iff m l).mpr hc)
    rw [List.map_append, List.nodup_append]
    exact ⟨hnd, by simp, by simpa using hl⟩

/-- Bucketing the level bindings: the buckets' union is a permutation
of the bound ids, and bucket keys stay duplicate-free. -/
theorem levelGroupsFold (ntl : List (String × Nat)) :
    ∀ (acc : List (Nat × List String)), (acc.map Prod.fst).Nodup →
    ((ntl.foldl (fun m p => groupSet m p.2 p.1) acc).flatMap Prod.snd).Perm
      (acc.flatMap Prod.snd ++ ntl.map Prod.fst) ∧
    ((ntl.foldl (fun m p => groupSet m p.2 p.1) acc).map Prod.fst).Nodup := by
  induction ntl with
  | nil =>
    intro acc hnd
    refine ⟨?_, hnd⟩
    simp
  | cons p t ih =>
    intro acc hnd
    simp only [List.foldl_cons, List.map_cons]
    obtain ⟨ihp, ihn⟩ := ih (groupSet acc p.2 p.1) (groupSet_keys_nodup acc p.2 p.1 hnd)
    refine ⟨?_, ihn⟩
    refine List.Perm.trans ihp ?_
    refine List.Perm.trans ((groupSet_flat acc p.2 p.1 hnd).append_right (t.map Prod.fst)) ?_
    exact List.perm_middle.symm

/-- The level grouping of `_assign_levels`: its buckets partition the
bound ids. -/
theorem levelGroups_flat (ntl : List (String × Nat)) :
    ((levelGroups ntl).flatMap Prod.snd).Perm (ntl.map Prod.fst) ∧
    ((levelGroups ntl).map Prod.fst).Nodup := by
  have h := levelGroupsFold ntl [] (by simp)
  unfold levelGroups
  simpa using h

theorem insSorted_perm (p : Nat × List String) (l : List (Nat × List String)) :
    (insSorted p l).Perm (p :: l) := by
  induction l with
  | nil => exact List.Perm.refl _
  | cons q qs ih =>
    unfold insSorted
    by_cases h : p.1 ≤ q.1
    · rw [if_pos h]
    · rw [if_neg h]
      exact List.Perm.trans (ih.cons q) (List.Perm.swap p q qs)

theorem sortByKey_perm (l : List (Nat × List String)) : (sortByKey l).Perm l := by
  induction l with
  | nil => exact List.Perm.refl _
  | cons p t ih =>
    show (insSorted p (t.foldr insSorted [])).Perm (p :: t)
    exact List.Perm.trans (insSorted_perm p (t.foldr insSorted [])) (ih.cons p)

/-- The level groups partition the node ids (shared helper). -/
theorem levelsOf_partition (keys : List String) (conns : List Conn)
    (hknd : keys.Nodup) :
    ((levelsOf keys conns).flatMap Prod.snd).Perm keys := by
  have hord := topologicalSort_perm keys conns hknd
  have hordnd : (topologicalSort keys conns).Nodup := (hord.nodup_iff).mpr hknd
  have hkeys := nodeToLevel_keys (revAdjacencyOf keys conns)
    (topologicalSort keys conns) hordnd
  obtain ⟨hflat, _⟩ := levelGroups_flat (nodeToLevel
    (revAdjacencyOf keys conns) (topologicalSort keys conns))
  unfold levelsOf
  have hsort := sortByKey_perm (levelGroups (nodeToLevel
    (revAdjacencyOf keys conns) (topologicalSort keys conns)))
  rw [hkeys] at hflat
  exact ((hsort.flatMap_right Prod.snd).trans hflat).trans hord

/-- Claim C10: for every workflow — cyclic graphs and dangling edge ids
included — the level groups produced during layout partition the node
ids: their union is a permutation of the workflow's node-id list (so
with unique ids, every step lands in exactly one level group). -/
theorem C10_level_partition (w : Workflow) (hB : Built w) :
    ((levelsOf (nodeKeys w) w.connections).flatMap Prod.snd).Perm (nodeKeys w) :=
  levelsOf_partition (nodeKeys w) w.connections hB.2

/-- Witness for C10_level_partition on the concrete cyclic workflow
with a dangling edge. -/
theorem C10_witness :
    Built sampleMessy ∧
    ((levelsOf (nodeKeys sampleMessy) sampleMessy.connections).flatMap Prod.snd).Perm
      (nodeKeys sampleMessy) :=
  ⟨by decide, C10_level_partition sampleMessy (by decide)⟩

/-- Claim C6: after `_route_connections`, a connection whose two
endpoints resolve gets exactly the two-point path bottom-center of the
source box to top-center of the target box (integer-division halves); a
connection with an unresolvable endpoint keeps its empty path. -/
theorem C6_routing (w : Workflow) (h0 : ∀ c ∈ w.connections, c.path = [])
    (i : Nat) (c : Conn) (hc : w.connections.get? i = some c) :
    ∃ c', (routeConnections w).connections.get? i = some c' ∧
      ((∃ s t, w.nodes.lookup c.source = some s ∧ w.nodes.lookup c.target = some t ∧
        c'.path = [(s.x + ((s.width / 2 : Nat) : Int), s.y + (s.height : Int)),
                   (t.x + ((t.width / 2 : Nat) : Int), t.y)]) ∨
       ((w.nodes.lookup c.source = none ∨ w.nodes.lookup c.target = none) ∧
        c'.path = [])) := by
  have hcm : c ∈ w.connections := by
    rcases List.get?_eq_some.mp hc with ⟨hlt, hget⟩
    exact hget ▸ List.get_mem w.connections i hlt
  unfold routeConnections
  simp only [List.get?_map, hc, Option.map_some']
  rcases hs : w.nodes.lookup c.source with _ | s
  · rcases ht : w.nodes.lookup c.target with _ | t
    · exact ⟨c, rfl, Or.inr ⟨Or.inl rfl, h0 c hcm⟩⟩
    · exact ⟨c, rfl, Or.inr ⟨Or.inl rfl, h0 c hcm⟩⟩
  · rcases ht : w.nodes.lookup c.target with _ | t
    · exact ⟨c, rfl, Or.inr ⟨Or.inr rfl, h0 c hcm⟩⟩
    · exact ⟨_, rfl, Or.inl ⟨s, t, rfl, rfl, rfl⟩⟩

/-- Witness for C6_routing on the concrete workflow `a → b`. -/
theorem C6_witness :
    ∃ c', (routeConnections sampleDag).connections.get? 0 = some c' ∧
      ((∃ s t,
        sampleDag.nodes.lookup (mkConnection "a" "b" "normal" none).source = some s ∧
        sampleDag.nodes.lookup (mkConnection "a" "b" "normal" none).target = some t ∧
        c'.path = [(s.x + ((s.width / 2 : Nat) : Int), s.y + (s.height : Int)),
                   (t.x + ((t.width / 2 : Nat) : Int), t.y)]) ∨
       ((sampleDag.nodes.lookup (mkConnection "a" "b" "normal" none).source = none ∨
         sampleDag.nodes.lookup (mkConnection "a" "b" "normal" none).target = none) ∧
        c'.path = [])) :=
  C6_routing sampleDag (by decide) 0 (mkConnection "a" "b" "normal" none) (by decide)

theorem lookup_some_mem_keys {β : Type} {m : List (String × β)} {id : String} {b : β}
    (h : m.lookup id = some b) : id ∈ m.map Prod.fst := by
  induction m with
  | nil => cases h
  | cons p t ih =>
    rcases hb : (id == p.1) with _ | _
    · simp only [List.lookup, hb] at h
      exact List.mem_cons_of_mem _ (ih h)
    · have : id = p.1 := by simpa using hb
      rw [List.map_cons, this]
      exact List.mem_cons_self _ _

theorem lookup_some_of_mem_keys {β : Type} {m : List (String × β)} {id : String}
    (h : id ∈ m.map Prod.fst) : ∃ b, m.lookup id = some b := by
  induction m with
  | nil => cases h
  | cons p t ih =>
    by_cases he : id = p.1
    · refine ⟨p.2, ?_⟩
      have hb : (id == p.1) = true := by simp [he]
      simp [List.lookup, hb]
    · have hb : (id == p.1) = false := beq_false_of_ne he
      rw [List.map_cons] at h
      rcases List.mem_cons.mp h with h1 | h2
      · exact absurd h1 he
      · rcases ih h2 with ⟨b, hbk⟩
        refine ⟨b, ?_⟩
        simp [List.lookup, hb, hbk]

theorem dictSet_lookup_other (m : List (String × Node)) (u : String) (v : Node)
    {k : String} (h : k ≠ u) : (dictSet m u v).lookup k = m.lookup k := by
  unfold dictSet
  by_cases hany : m.any (fun p => p.1 == u)
  · rw [if_pos hany]
    exact lookup_map_set m u v h
  · rw [if_neg hany]
    exact lookup_append_single m u v h

theorem dictSet_lookup_self (m : List (String × Node)) (u : String) (v : Node) :
    (dictSet m u v).lookup u = some v := by
  unfold dictSet
  by_cases hany : m.any (fun p => p.1 == u)
  · rw [if_pos hany]
    exact lookup_map_set_self m u v hany
  · rw [if_neg hany]
    induction m with
    | nil => simp [List.lookup]
    | cons p t ih =>
      simp only [List.any_cons, Bool.or_eq_true, not_or] at hany
      have hb : (u == p.1) = false := by
        refine beq_false_of_ne ?_
        intro hc
        exact hany.1 (by simp [hc])
      simp [List.lookup, hb]
      exact ih hany.2

theorem dictSet_keys_of_mem (m : List (String × Node)) (u : String) (v : Node)
    (h : u ∈ m.map Prod.fst) : (dictSet m u v).map Prod.fst = m.map Prod.fst := by
  unfold dictSet
  have hany : m.any (fun p => p.1 == u) = true := (any_key_iff m u).mpr h
  rw [if_pos hany, List.map_map]
  apply List.map_congr_left
  intro p _
  by_cases hp : p.1 = u <;> simp [hp]

theorem NodesXY_refl (base : List (String × Node)) : NodesXY base base := by
  refine ⟨rfl, ?_⟩
  intro id n h
  refine ⟨n, h, ?_⟩
  cases n
  rfl

theorem NodesXY_width {base cur : List (String × Node)} (h : NodesXY base cur)
    {id : String} {n : Node} (hl : cur.lookup id = some n) :
    ∃ n₀, base.lookup id = some n₀ ∧ n.width = n₀.width ∧ n.height = n₀.height ∧
      n.style = n₀.style := by
  rcases h.2 id n hl with ⟨n₀, hb, he⟩
  exact ⟨n₀, hb, by rw [he]; rfl, by rw [he]; rfl, by rw [he]; rfl⟩

theorem NodesXY_update {base cur : List (String × Node)} (h : NodesXY base cur)
    {id : String} {n : Node} (hl : cur.lookup id = some n) (x y : Int) :
    NodesXY base (dictSet cur id (setXY n x y)) := by
  obtain ⟨hkeys, hrel⟩ := h
  constructor
  · rw [dictSet_keys_of_mem cur id _ (lookup_some_mem_keys hl)]
    exact hkeys
  · intro k nk hk
    by_cases hki : k = id
    · subst hki
      rw [dictSet_lookup_self] at hk
      have hnk := Option.some.inj hk
      rcases hrel k n hl with ⟨n₀, hb, he⟩
      refine ⟨n₀, hb, ?_⟩
      rw [← hnk, he]
      rfl
    · rw [dictSet_lookup_other cur id _ hki] at hk
      exact hrel k nk hk

theorem pyMax_eq_foldl {l : List Nat} (h : l ≠ []) : pyMax l = some (l.foldl max 0) := by
  cases l with
  | nil => exact absurd rfl h
  | cons x t =>
    unfold pyMax
    rw [List.foldl_cons, Nat.zero_max]

theorem lookupHeights_spec (base ns : List (String × Node)) (hxy : NodesXY base ns) :
    ∀ (lst : List String), (∀ id ∈ lst, id ∈ ns.map Prod.fst) →
    lookupHeights ns lst = some (lst.map (heightOfD base)) := by
  intro lst
  induction lst with
  | nil =>
    intro _
    rfl
  | cons id t ih =>
    intro hmem
    obtain ⟨n, hn⟩ := lookup_some_of_mem_keys (hmem id (List.mem_cons_self id t))
    obtain ⟨n₀, hb, _, hh, _⟩ := NodesXY_width hxy hn
    unfold lookupHeights
    rw [hn, ih (fun x hx => hmem x (List.mem_cons_of_mem id hx))]
    show some (n.height :: t.map (heightOfD base)) = _
    have : heightOfD base id = n.height := by
      unfold heightOfD
      rw [hb, hh]
      rfl
    rw [List.map_cons, this]

/-- The inner placement loop of one level: every listed id gets the
coordinates `x = (index+1)·spacing − width/2`, `y = current_y`. -/
theorem placeFoldInner (spacing currentY : Nat) (base : List (String × Node)) :
    ∀ (l : List String) (j : Nat) (ns : List (String × Node)),
    l.Nodup → (∀ id ∈ l, id ∈ ns.map Prod.fst) → NodesXY base ns →
    ∃ ns', (l.enumFrom j).foldlM (placeNode spacing currentY) ns = some ns' ∧
      NodesXY base ns' ∧
      (∀ k, k ∉ l → ns'.lookup k = ns.lookup k) ∧
      (∀ i id, l.get? i = some id → ∃ n₀, base.lookup id = some n₀ ∧
        ns'.lookup id = some (setXY n₀
          ((((j + i + 1) * spacing : Nat) : Int) - ((n₀.width / 2 : Nat) : Int))
          ((currentY : Nat) : Int))) := by
  intro l
  induction l with
  | nil =>
    intro j ns _ _ hxy
    refine ⟨ns, rfl, hxy, fun k _ => rfl, ?_⟩
    intro i id hid
    rw [List.get?_nil] at hid
    cases hid
  | cons a t ih =>
    intro j ns hnd hmem hxy
    have hna : a ∉ t := (List.nodup_cons.mp hnd).1
    obtain ⟨n, hn⟩ := lookup_some_of_mem_keys (hmem a (List.mem_cons_self a t))
    obtain ⟨n₀a, hba, hwa, _, _⟩ := NodesXY_width hxy hn
    set na' := setXY n ((((j + 1) * spacing : Nat) : Int) - ((n.width / 2 : Nat) : Int))
      ((currentY : Nat) : Int) with hna'
    have hstep : placeNode spacing currentY ns (j, a) = some (dictSet ns a na') := by
      unfold placeNode
      rw [hn]
      rfl
    have hxy1 : NodesXY base (dictSet ns a na') := NodesXY_update hxy hn _ _
    have hkeys1 : (dictSet ns a na').map Prod.fst = ns.map Prod.fst :=
      dictSet_keys_of_mem ns a na' (lookup_some_mem_keys hn)
    obtain ⟨ns', hfold, hxy', hpers, hchar⟩ := ih (j + 1) (dictSet ns a na')
      (List.nodup_cons.mp hnd).2
      (fun x hx => by
        rw [hkeys1]
        exact hmem x (List.mem_cons_of_mem a hx))
      hxy1
    refine ⟨ns', ?_, hxy', ?_, ?_⟩
    · show ((j, a) :: t.enumFrom (j + 1)).foldlM (placeNode spacing currentY) ns = some ns'
      simp only [List.foldlM_cons, hstep, Option.bind_eq_bind, Option.some_bind]
      exact hfold
    · intro k hk
      have hk1 : k ∉ t := fun hc => hk (List.mem_cons_of_mem a hc)
      have hk2 : k ≠ a := by
        intro hc
        apply hk
        rw [hc]
        exact List.mem_cons_self a t
      rw [hpers k hk1, dictSet_lookup_other ns a na' hk2]
    · intro i id hid
      cases i with
      | zero =>
        rw [List.get?_cons_zero] at hid
        injection hid with hid
        subst hid
        refine ⟨n₀a, hba, ?_⟩
        rw [hpers a hna, dictSet_lookup_self]
        show some na' = _
        have hj : j + 0 + 1 = j + 1 := by omega
        rw [hj, hna']
        rcases hxy.2 a n hn with ⟨n₀b, hbb, heb⟩
        rw [hba] at hbb
        injection hbb with hbb
        subst hbb
        rw [heb]
        rfl
      | succ i =>
        rw [List.get?_cons_succ] at hid
        obtain ⟨n₀, hb, hc⟩ := hchar i id hid
        refine ⟨n₀, hb, ?_⟩
        have hj : j + 1 + i + 1 = j + (i + 1) + 1 := by omega
        rw [← hj]
        exact hc

/-- One level of the placement loop of `calculate_layout`, fully
characterised. -/
theorem placeLevel_spec (maxWidth : Nat) (base : List (String × Node))
    (ns : List (String × Node)) (cy : Nat) (L : Nat) (lst : List String)
    (hnd : lst.Nodup) (hne : lst ≠ [])
    (hmem : ∀ id ∈ lst, id ∈ ns.map Prod.fst) (hxy : NodesXY base ns) :
    ∃ ns', placeLevel maxWidth (ns, cy) (L, lst) =
        some (ns', cy + levelRowHeight base lst) ∧
      NodesXY base ns' ∧
      (∀ k, k ∉ lst → ns'.lookup k = ns.lookup k) ∧
      (∀ i id, lst.get? i = some id → ∃ n₀, base.lookup id = some n₀ ∧
        ns'.lookup id = some (setXY n₀
          ((((i + 1) * (max 80 (maxWidth * lst.length) / (lst.length + 1)) : Nat) : Int) -
            ((n₀.width / 2 : Nat) : Int))
          ((cy : Nat) : Int))) := by
  obtain ⟨ns', hfold, hxy', hpers, hchar⟩ := placeFoldInner
    (max 80 (maxWidth * lst.length) / (lst.length + 1)) cy base lst 0 ns hnd hmem hxy
  refine ⟨ns', ?_, hxy', hpers, ?_⟩
  · unfold placeLevel
    dsimp only
    rw [lookupHeights_spec base ns hxy lst hmem]
    have hmap : lst.map (heightOfD base) ≠ [] := by
      intro hc
      exact hne (List.map_eq_nil_iff.mp hc)
    simp only [Option.bind_eq_bind, Option.some_bind]
    rw [pyMax_eq_foldl hmap]
    simp only [Option.bind_eq_bind, Option.some_bind]
    have hfold2 : List.foldlM
        (placeNode (max 80 (maxWidth * lst.length) / (lst.length + 1)) cy) ns lst.enum =
        some ns' := hfold
    rw [hfold2]
    simp only [Option.bind_eq_bind, Option.some_bind]
    show some (ns', cy + ((lst.map (heightOfD base)).foldl max 0 + 2)) = _
    rfl
  · intro i id hid
    obtain ⟨n₀, hb, hc⟩ := hchar i id hid
    refine ⟨n₀, hb, ?_⟩
    have hj : 0 + i + 1 = i + 1 := by omega
    rw [← hj]
    exact hc

/-- The full placement loop over the sorted level groups. -/
theorem placeFoldLevels (maxWidth : Nat) (base : List (String × Node)) :
    ∀ (levels : List (Nat × List String)) (ns : List (String × Node)) (cy : Nat),
    (levels.flatMap Prod.snd).Nodup →
    (∀ p ∈ levels, p.2 ≠ []) →
    (∀ id ∈ levels.flatMap Prod.snd, id ∈ ns.map Prod.fst) →
    NodesXY base ns →
    ∃ fin, levels.foldlM (placeLevel maxWidth) (ns, cy) = some fin ∧
      NodesXY base fin.1 ∧
      fin.2 = cy + (levels.map (fun p => levelRowHeight base p.2)).sum ∧
      (∀ k, k ∉ levels.flatMap Prod.snd → fin.1.lookup k = ns.lookup k) ∧
      (∀ pre lvl post, levels = pre ++ lvl :: post →
        ∀ i id, lvl.2.get? i = some id → ∃ n₀, base.lookup id = some n₀ ∧
          fin.1.lookup id = some (setXY n₀
            ((((i + 1) * (max 80 (maxWidth * lvl.2.length) / (lvl.2.length + 1)) : Nat) : Int) -
              ((n₀.width / 2 : Nat) : Int))
            ((cy + (pre.map (fun p => levelRowHeight base p.2)).sum : Nat) : Int))) := by
  intro levels
  induction levels with
  | nil =>
    intro ns cy _ _ _ hxy
    refine ⟨(ns, cy), rfl, hxy, by simp, fun k _ => rfl, ?_⟩
    intro pre lvl post he
    exact absurd he (by simp)
  | cons lvl0 rest ih =>
    intro ns cy hnd hnem hmem hxy
    have hflat : (lvl0 :: rest).flatMap Prod.snd = lvl0.2 ++ rest.flatMap Prod.snd := by
      simp [List.flatMap_cons]
    rw [hflat] at hnd hmem
    have hnd0 : lvl0.2.Nodup := (List.nodup_append.mp hnd).1
    have hndr : (rest.flatMap Prod.snd).Nodup := (List.nodup_append.mp hnd).2.1
    have hdisj := (List.nodup_append.mp hnd).2.2
    obtain ⟨ns1, hplace, hxy1, hpers1, hchar1⟩ := placeLevel_spec maxWidth base ns cy
      lvl0.1 lvl0.2 hnd0 (hnem lvl0 (List.mem_cons_self lvl0 rest))
      (fun id hid => hmem id (List.mem_append_left _ hid)) hxy
    have hkeys1 : ns1.map Prod.fst = ns.map Prod.fst := by
      rw [hxy1.1, hxy.1]
    obtain ⟨fin, hfold, hxyf, hcyf, hpersf, hcharf⟩ := ih ns1
      (cy + levelRowHeight base lvl0.2) hndr
      (fun p hp => hnem p (List.mem_cons_of_mem lvl0 hp))
      (fun id hid => by
        rw [hkeys1]
        exact hmem id (List.mem_append_right _ hid))
      hxy1
    refine ⟨fin, ?_, hxyf, ?_, ?_, ?_⟩
    · simp only [List.foldlM_cons]
      have hlv : (lvl0.1, lvl0.2) = lvl0 := rfl
      rw [← hlv, hplace, Option.bind_eq_bind, Option.some_bind]
      exact hfold
    · rw [hcyf]
      simp only [List.map_cons, List.sum_cons]
      omega
    · intro k hk
      rw [hpersf k (fun hc => hk (List.mem_append_right _ hc)),
        hpers1 k (fun hc => hk (List.mem_append_left _ hc))]
    · intro pre lvl post he
      cases pre with
      | nil =>
        simp only [List.nil_append] at he
        injection he with he1 he2
        subst he1
        subst he2
        intro i id hid
        obtain ⟨n₀, hb, hc⟩ := hchar1 i id hid
        refine ⟨n₀, hb, ?_⟩
        have hidm : id ∈ lvl0.2 := by
          rcases List.get?_eq_some.mp hid with ⟨hlt, hget⟩
          exact hget ▸ List.get_mem _ i hlt
        rw [hpersf id (fun hc2 => hdisj hidm hc2)]
        simpa using hc
      | cons p0 pre' =>
        simp only [List.cons_append] at he
        injection he with he1 he2
        subst he1
        intro i id hid
        obtain ⟨n₀, hb, hc⟩ := hcharf pre' lvl post he2 i id hid
        refine ⟨n₀, hb, ?_⟩
        rw [hc]
        show some (setXY n₀ _ ((cy + levelRowHeight base lvl0.2 +
          (pre'.map (fun p => levelRowHeight base p.2)).sum : Nat) : Int)) = _
        simp only [List.map_cons, List.sum_cons]
        have harith : cy + levelRowHeight base lvl0.2 +
            (pre'.map (fun p => levelRowHeight base p.2)).sum =
            cy + (levelRowHeight base lvl0.2 +
              (pre'.map (fun p => levelRowHeight base p.2)).sum) := by omega
        rw [harith]

theorem dimsNodes_keys (w : Workflow) : (dimsNodes w).map Prod.fst = nodeKeys w := by
  unfold dimsNodes nodeKeys
  rw [List.map_map]
  rfl

theorem groupSet_snd_ne (m : List (Nat × List String)) (l : Nat) (id : String)
    (h : ∀ p ∈ m, p.2 ≠ []) : ∀ p ∈ groupSet m l id, p.2 ≠ [] := by
  unfold groupSet
  by_cases hany : m.any (fun p => p.1 == l) = true
  · rw [if_pos hany]
    intro p hp
    rcases List.mem_map.mp hp with ⟨q, hq, rfl⟩
    by_cases hql : q.1 = l
    · rw [if_pos hql]
      simp
    · rw [if_neg hql]
      exact h q hq
  · rw [if_neg hany]
    intro p hp
    rcases List.mem_append.mp hp with h1 | h2
    · exact h p h1
    · rcases List.mem_singleton.mp h2 with rfl
      simp

theorem levelGroups_snd_ne (ntl : List (String × Nat)) :
    ∀ p ∈ levelGroups ntl, p.2 ≠ [] := by
  unfold levelGroups
  suffices h : ∀ (acc : List (Nat × List String)), (∀ p ∈ acc, p.2 ≠ []) →
      ∀ p ∈ ntl.foldl (fun m q => groupSet m q.2 q.1) acc, p.2 ≠ [] by
    exact h [] (fun p hp => absurd hp (List.not_mem_nil p))
  induction ntl with
  | nil =>
    intro acc hacc
    exact hacc
  | cons q t ih =>
    intro acc hacc
    simp only [List.foldl_cons]
    exact ih (groupSet acc q.2 q.1) (groupSet_snd_ne acc q.2 q.1 hacc)

theorem levelsOf_snd_ne (keys : List String) (conns : List Conn) :
    ∀ p ∈ levelsOf keys conns, p.2 ≠ [] := by
  intro p hp
  have hmem := (sortByKey_perm _).mem_iff.mp hp
  exact levelGroups_snd_ne _ p hmem

theorem lookup_mem_pair {β : Type} {m : List (String × β)} {id : String} {b : β}
    (h : m.lookup id = some b) : (id, b) ∈ m := by
  induction m with
  | nil => cases h
  | cons p t ih =>
    rcases hb : (id == p.1) with _ | _
    · simp only [List.lookup, hb] at h
      exact List.mem_cons_of_mem p (ih h)
    · have he : id = p.1 := by simpa using hb
      simp only [List.lookup, hb] at h
      have hv : b = p.2 := by
        injection h with h
        exact h.symm
      rw [he, hv]
      exact List.mem_cons_self p t

theorem half_le_spacing (mW cnt wi : Nat) (hcnt : 1 ≤ cnt) (hwi : wi ≤ mW) :
    wi / 2 ≤ max 80 ((mW + 10) * cnt) / (cnt + 1) := by
  have h1 : (mW + 10) * cnt ≤ max 80 ((mW + 10) * cnt) := le_max_right _ _
  have hq2 : mW / 2 * 2 ≤ mW := Nat.div_mul_le_self mW 2
  have hqc : mW / 2 ≤ mW / 2 * cnt := Nat.le_mul_of_pos_right (mW / 2) (by omega)
  have h2 : (mW / 2) * (cnt + 1) ≤ (mW + 10) * cnt := by nlinarith
  have h3 : mW / 2 ≤ ((mW + 10) * cnt) / (cnt + 1) :=
    (Nat.le_div_iff_mul_le (by omega)).mpr h2
  have h4 := Nat.div_le_div_right (c := cnt + 1) h1
  have h5 : wi / 2 ≤ mW / 2 := Nat.div_le_div_right hwi
  omega

/-- Full characterisation of `calculate_layout` on a well-formed
non-empty workflow: it succeeds, mutates only geometry, and gives every
step the documented coordinates. -/
theorem calculateLayout_spec (w : Workflow) (hknd : (nodeKeys w).Nodup)
    (hne : w.nodes ≠ []) :
    ∃ w', calculateLayout w = some w' ∧
      w'.title = w.title ∧
      w'.canvas = w.canvas ∧
      NodesXY (dimsNodes w) w'.nodes ∧
      w'.nodes.map Prod.fst = nodeKeys w ∧
      (∃ hs : Nat, w'.canvas_height = ((hs : Nat) : Int) ∧ 4 ≤ hs) ∧
      ((w.title.length : Int) + 4 ≤ w'.canvas_width) ∧
      (∀ pre lvl post, levelsOf (nodeKeys w) w.connections = pre ++ lvl :: post →
        ∀ i id, lvl.2.get? i = some id → ∃ n₀, (dimsNodes w).lookup id = some n₀ ∧
          w'.nodes.lookup id = some (setXY n₀
            ((((i + 1) * spacingFor w lvl.2.length : Nat) : Int) -
              ((n₀.width / 2 : Nat) : Int))
            ((2 + (pre.map (fun p => levelRowHeight (dimsNodes w) p.2)).sum : Nat) : Int))) ∧
      (∀ id n, w'.nodes.lookup id = some n → 0 ≤ n.x ∧ 0 ≤ n.y) := by
  have hdne : dimsNodes w ≠ [] := by
    unfold dimsNodes
    intro hc
    exact hne (List.map_eq_nil_iff.mp hc)
  have hwne : (dimsNodes w).map (fun p => p.2.width) ≠ [] := by
    intro hc
    exact hdne (List.map_eq_nil_iff.mp hc)
  obtain ⟨mw, hmw⟩ := pyMax_ne_nil hwne
  have hmwv : mw = ((dimsNodes w).map (fun p => p.2.width)).foldl max 0 := by
    rw [pyMax_eq_foldl hwne] at hmw
    exact (Option.some.inj hmw).symm
  have hMW : mw + 10 = maxWidthOf w := by
    rw [hmwv]
    rfl
  have hflatperm := levelsOf_partition (nodeKeys w) w.connections hknd
  have hflatnd : ((levelsOf (nodeKeys w) w.connections).flatMap Prod.snd).Nodup :=
    (hflatperm.nodup_iff).mpr hknd
  obtain ⟨fin, hfold, hxyf, hcyf, _, hcharf⟩ := placeFoldLevels (mw + 10) (dimsNodes w)
    (levelsOf (nodeKeys w) w.connections) (dimsNodes w) 2 hflatnd
    (levelsOf_snd_ne (nodeKeys w) w.connections)
    (fun id hid => by
      rw [dimsNodes_keys]
      exact hflatperm.subset hid)
    (NodesXY_refl (dimsNodes w))
  have hfinkeys : fin.1.map Prod.fst = nodeKeys w := by
    rw [hxyf.1, dimsNodes_keys]
  have hfinne : fin.1 ≠ [] := by
    intro hc
    have : nodeKeys w = [] := by
      rw [← hfinkeys, hc]
      rfl
    unfold nodeKeys at this
    exact hne (List.map_eq_nil_iff.mp this)
  have hxne : fin.1.map (fun p => p.2.x + (p.2.width : Int)) ≠ [] := by
    intro hc
    exact hfinne (List.map_eq_nil_iff.mp hc)
  obtain ⟨mx, hmx⟩ := pyMaxI_ne_nil hxne
  refine ⟨routeConnections { w with
      nodes := fin.1
      canvas_width := max (mx + 5) ((w.title.length : Int) + 4)
      canvas_height := ((fin.2 : Nat) : Int) + 2 }, ?_, rfl, rfl, hxyf, hfinkeys,
    ⟨fin.2 + 2, by
      show ((fin.2 : Nat) : Int) + 2 = ((fin.2 + 2 : Nat) : Int)
      push_cast
      ring, by omega⟩, le_max_right _ _, ?_, ?_⟩
  · unfold calculateLayout
    rw [if_neg (by simpa [List.isEmpty_iff] using hne)]
    dsimp only
    rw [hmw]
    simp only [Option.bind_eq_bind, Option.some_bind]
    rw [hfold]
    simp only [Option.bind_eq_bind, Option.some_bind]
    rw [hmx]
    simp only [Option.bind_eq_bind, Option.some_bind]
    rfl
  · intro pre lvl post he i id hid
    obtain ⟨n₀, hb, hc⟩ := hcharf pre lvl post he i id hid
    refine ⟨n₀, hb, ?_⟩
    show fin.1.lookup id = _
    rw [hc]
    unfold spacingFor
    rw [← hMW]
  · intro id n hn
    show (0 : Int) ≤ n.x ∧ (0 : Int) ≤ n.y
    have hidk : id ∈ nodeKeys w := by
      rw [← hfinkeys]
      exact lookup_some_mem_keys hn
    have hidf : id ∈ (levelsOf (nodeKeys w) w.connections).flatMap Prod.snd :=
      (hflatperm.mem_iff).mpr hidk
    rcases List.mem_flatMap.mp hidf with ⟨lvl, hlvl, hidl⟩
    obtain ⟨pre, post, hsplit⟩ := List.append_of_mem hlvl
    obtain ⟨i, hget⟩ := List.get?_of_mem hidl
    obtain ⟨n₀, hb, hc⟩ := hcharf pre lvl post hsplit i id hget
    have hn2 : n = setXY n₀
        ((((i + 1) * (max 80 ((mw + 10) * lvl.2.length) / (lvl.2.length + 1)) : Nat) : Int) -
          ((n₀.width / 2 : Nat) : Int))
        ((2 + (pre.map (fun p => levelRowHeight (dimsNodes w) p.2)).sum : Nat) : Int) := by
      have hn' : fin.1.lookup id = some n := hn
      rw [hc] at hn'
      exact Option.some.inj hn'.symm
    have hcnt : 1 ≤ lvl.2.length := by
      cases hl : lvl.2 with
      | nil =>
        rw [hl] at hidl
        cases hidl
      | cons a t => simp [hl]
    have hwle : n₀.width ≤ ((dimsNodes w).map (fun p => p.2.width)).foldl max 0 := by
      have hpm : (id, n₀) ∈ dimsNodes w := lookup_mem_pair hb
      exact mem_le_foldl_max _ 0
        (List.mem_map_of_mem (fun p => p.2.width) hpm)
    have hsp : n₀.width / 2 ≤ max 80 ((mw + 10) * lvl.2.length) / (lvl.2.length + 1) := by
      rw [hmwv] at hMW ⊢
      exact half_le_spacing _ _ _ hcnt hwle
    have hsp2 : max 80 ((mw + 10) * lvl.2.length) / (lvl.2.length + 1) ≤
        (i + 1) * (max 80 ((mw + 10) * lvl.2.length) / (lvl.2.length + 1)) :=
      Nat.le_mul_of_pos_left _ (by omega)
    constructor
    · rw [hn2]
      show (0 : Int) ≤ (((i + 1) * _ : Nat) : Int) - ((n₀.width / 2 : Nat) : Int)
      have := le_trans hsp hsp2
      omega
    · rw [hn2]
      show (0 : Int) ≤ ((2 + _ : Nat) : Int)
      omega

theorem insSorted_sorted (p : Nat × List String) (l : List (Nat × List String))
    (h : List.Pairwise (fun a b => a.1 ≤ b.1) l) :
    List.Pairwise (fun a b => a.1 ≤ b.1) (insSorted p l) := by
  induction l with
  | nil => simp [insSorted]
  | cons q qs ih =>
    rw [List.pairwise_cons] at h
    unfold insSorted
    by_cases hle : p.1 ≤ q.1
    · rw [if_pos hle]
      rw [List.pairwise_cons]
      refine ⟨?_, List.pairwise_cons.mpr h⟩
      intro r hr
      rcases List.mem_cons.mp hr with rfl | hr2
      · exact hle
      · exact le_trans hle (h.1 r hr2)
    · rw [if_neg hle]
      rw [List.pairwise_cons]
      refine ⟨?_, ih h.2⟩
      intro r hr
      rcases List.mem_cons.mp ((insSorted_perm p qs).mem_iff.mp hr) with h1 | h2
      · rw [h1]
        exact le_of_not_le hle
      · exact h.1 r h2

theorem sortByKey_sorted (l : List (Nat × List String)) :
    List.Pairwise (fun a b => a.1 ≤ b.1) (sortByKey l) := by
  induction l with
  | nil => exact List.Pairwise.nil
  | cons p t ih => exact insSorted_sorted p (t.foldr insSorted []) ih

theorem pairwise_lt_of_le_nodup (l : List (Nat × List String))
    (hle : List.Pairwise (fun a b => a.1 ≤ b.1) l)
    (hnd : (l.map Prod.fst).Nodup) :
    List.Pairwise (fun a b => a.1 < b.1) l := by
  have hne : List.Pairwise (fun a b : Nat × List String => a.1 ≠ b.1) l :=
    (List.pairwise_map).mp hnd
  exact (hle.and hne).imp (fun h => lt_of_le_of_ne h.1 h.2)

/-- The sorted level groups are strictly ascending in level. -/
theorem levelsOf_ascending (keys : List String) (conns : List Conn) :
    List.Pairwise (fun a b => a.1 < b.1) (levelsOf keys conns) := by
  have hle := sortByKey_sorted (levelGroups (nodeToLevel
    (revAdjacencyOf keys conns) (topologicalSort keys conns)))
  obtain ⟨_, hnd⟩ := levelGroups_flat (nodeToLevel
    (revAdjacencyOf keys conns) (topologicalSort keys conns))
  have hperm := sortByKey_perm (levelGroups (nodeToLevel
    (revAdjacencyOf keys conns) (topologicalSort keys conns)))
  have hnd2 : ((levelsOf keys conns).map Prod.fst).Nodup :=
    ((hperm.map Prod.fst).nodup_iff).mpr hnd
  exact pairwise_lt_of_le_nodup _ hle hnd2

/-- Claim C4: `calculate_layout` walks the level groups in ascending
level order; a level of `stepCount` steps gets available width
`max(80, (maxStepWidth+10)·stepCount)` (`maxWidthOf` is the global
maximum step width plus 10), the `i`-th step of the level gets
`x = (i+1)·(availableWidth/(stepCount+1)) − width/2` with integer
division and `y` equal to the running offset `2 + Σ` of the previous
levels' row heights (each `max height + 2`), box sizes unchanged. -/
theorem C4_layout_coordinates (w : Workflow) (hB : Built w) (hne : w.nodes ≠ []) :
    List.Pairwise (fun a b => a.1 < b.1) (levelsOf (nodeKeys w) w.connections) ∧
    ∃ w', calculateLayout w = some w' ∧
      ∀ pre lvl post, levelsOf (nodeKeys w) w.connections = pre ++ lvl :: post →
        ∀ i id, lvl.2.get? i = some id →
        ∃ n₀ n, (dimsNodes w).lookup id = some n₀ ∧ w'.nodes.lookup id = some n ∧
          n.width = n₀.width ∧ n.height = n₀.height ∧
          n.x = (((i + 1) * (max 80 (maxWidthOf w * lvl.2.length) / (lvl.2.length + 1))
                : Nat) : Int) - ((n₀.width / 2 : Nat) : Int) ∧
          n.y = ((2 + (pre.map (fun p => levelRowHeight (dimsNodes w) p.2)).sum
                : Nat) : Int) := by
  refine ⟨levelsOf_ascending (nodeKeys w) w.connections, ?_⟩
  obtain ⟨w', hcl, _, _, _, _, _, _, hchar, _⟩ := calculateLayout_spec w hB.2 hne
  refine ⟨w', hcl, ?_⟩
  intro pre lvl post he i id hid
  obtain ⟨n₀, hb, hc⟩ := hchar pre lvl post he i id hid
  refine ⟨n₀, _, hb, hc, rfl, rfl, ?_, rfl⟩
  show (setXY n₀ _ _).x = _
  unfold spacingFor
  rfl

/-- Witness for C4_layout_coordinates on the concrete workflow
`a → b`. -/
theorem C4_witness :
    Built sampleDag ∧ sampleDag.nodes ≠ [] ∧
    List.Pairwise (fun a b => a.1 < b.1)
      (levelsOf (nodeKeys sampleDag) sampleDag.connections) :=
  ⟨by decide, by decide, (C4_layout_coordinates sampleDag (by decide) (by decide)).1⟩

theorem pyIdx_eq_some {n : Nat} {i : Int} (h0 : 0 ≤ i) (hn : i < (n : Int)) :
    pyIdx n i = some i.toNat := by
  unfold pyIdx
  rw [if_pos h0, if_pos hn]

theorem getD_mem_of_lt {α : Type} (l : List α) (n : Nat) (d : α) (h : n < l.length) :
    l.getD n d ∈ l := by
  rw [List.getD_eq_getElem?_getD, List.getElem?_eq_getElem h]
  exact List.getElem_mem h

/-- A clipped write whose target is out of bounds changes nothing. -/
theorem clipWrite_out (W H : Int) (g : Grid) (y x : Int) (c : String)
    (h : ¬(0 ≤ x ∧ x < W ∧ 0 ≤ y ∧ y < H)) : clipWrite W H g y x c = g := by
  unfold clipWrite
  rw [if_neg h]

theorem clipWrite_gridOK (W H : Int) (g : Grid) (y x : Int) (c : String)
    (hg : gridOK W H g) : gridOK W H (clipWrite W H g y x c) := by
  unfold clipWrite
  by_cases h : 0 ≤ x ∧ x < W ∧ 0 ≤ y ∧ y < H
  · rw [if_pos h]
    refine ⟨by rw [List.length_set]; exact hg.1, ?_⟩
    intro row hrow
    rcases List.mem_or_eq_of_mem_set hrow with h1 | h2
    · exact hg.2 row h1
    · rw [h2, List.length_set]
      have hlt : y.toNat < g.length := by
        rw [hg.1]
        omega
      exact hg.2 _ (getD_mem_of_lt g y.toNat [] hlt)
  · rw [if_neg h]
    exact hg

/-- In bounds, the Python cell assignment is exactly the clipped write
(and in particular raises no `IndexError`). -/
theorem pyWrite_in_bounds (W H : Int) (g : Grid) (y x : Int) (c : String)
    (hg : gridOK W H g) (hy0 : 0 ≤ y) (hyH : y < H) (hx0 : 0 ≤ x) (hxW : x < W) :
    pyWrite g y x c = some (clipWrite W H g y x c) := by
  have hyl : y < (g.length : Int) := by
    rw [hg.1]
    omega
  have hylt : y.toNat < g.length := by
    rw [hg.1]
    omega
  have hrow : (g.getD y.toNat []).length = W.toNat :=
    hg.2 _ (getD_mem_of_lt g y.toNat [] hylt)
  have hxl : x < ((g.getD y.toNat []).length : Int) := by
    rw [hrow]
    omega
  unfold pyWrite
  rw [pyIdx_eq_some hy0 hyl]
  dsimp only
  rw [pyIdx_eq_some hx0 hxl]
  dsimp only
  unfold clipWrite
  rw [if_pos ⟨hx0, hxW, hy0, hyH⟩]

/-- A clipped write leaves every cell other than the addressed one
unchanged (no wraparound to another row or column). -/
theorem clipWrite_cell_other (W H : Int) (g : Grid) (y x : Int) (c : String) (r k : Nat)
    (h : r ≠ y.toNat ∨ k ≠ x.toNat) :
    ((clipWrite W H g y x c).getD r []).getD k "" = (g.getD r []).getD k "" := by
  unfold clipWrite
  by_cases hc : 0 ≤ x ∧ x < W ∧ 0 ≤ y ∧ y < H
  · rw [if_pos hc]
    by_cases hr : r = y.toNat
    · subst hr
      have hk : k ≠ x.toNat := by
        rcases h with h1 | h2
        · exact absurd rfl h1
        · exact h2
      by_cases hlen : y.toNat < g.length
      · rw [List.getD_eq_getElem?_getD (g.set y.toNat _) y.toNat,
          List.getElem?_set_self hlen]
        show ((g.getD y.toNat []).set x.toNat c).getD k "" = _
        rw [List.getD_eq_getElem?_getD ((g.getD y.toNat []).set x.toNat c) k,
          List.getElem?_set_ne (fun he => hk he.symm), ← List.getD_eq_getElem?_getD]
      · rw [List.set_eq_of_length_le (le_of_not_lt hlen)]
    · rw [List.getD_eq_getElem?_getD (g.set y.toNat _) r,
        List.getElem?_set_ne (fun he => hr he.symm), ← List.getD_eq_getElem?_getD]
  · rw [if_neg hc]

/-- A monadic grid fold equals the pure fold of its clipped mirror when
every step agrees under the invariant. -/
theorem foldlM_eq_foldl_of {α : Type} (inv : Grid → Prop)
    (f : Grid → α → Option Grid) (fc : Grid → α → Grid) :
    ∀ (l : List α) (g : Grid), inv g →
      (∀ a ∈ l, ∀ g', inv g' → f g' a = some (fc g' a) ∧ inv (fc g' a)) →
      l.foldlM f g = some (l.foldl fc g) ∧ inv (l.foldl fc g) := by
  intro l
  induction l with
  | nil =>
    intro g hg _
    exact ⟨rfl, hg⟩
  | cons a t ih =>
    intro g hg hstep
    have h1 := hstep a (List.mem_cons_self a t) g hg
    have h2 := ih (fc g a) h1.2 (fun b hb => hstep b (List.mem_cons_of_mem a hb))
    rw [List.foldl_cons]
    refine ⟨?_, h2.2⟩
    rw [List.foldlM_cons, h1.1]
    simp only [Option.bind_eq_bind, Option.some_bind]
    exact h2.1

theorem foldl_fixed_of {α β : Type} (f : β → α → β) :
    ∀ (l : List α) (b : β), (∀ a ∈ l, ∀ b', f b' a = b') → l.foldl f b = b := by
  intro l
  induction l with
  | nil =>
    intro b _
    rfl
  | cons a t ih =>
    intro b h
    rw [List.foldl_cons, h a (List.mem_cons_self a t) b]
    exact ih b (fun a' ha' b' => h a' (List.mem_cons_of_mem a ha') b')

/-- A write guarded exactly by the bounds check equals the clipped
write. -/
theorem guarded_write_step (W H : Int) (g : Grid) (y x : Int) (c : String)
    (hg : gridOK W H g) :
    (if 0 ≤ x ∧ x < W ∧ 0 ≤ y ∧ y < H then pyWrite g y x c else pure g) =
      some (clipWrite W H g y x c) := by
  by_cases hc : 0 ≤ x ∧ x < W ∧ 0 ≤ y ∧ y < H
  · rw [if_pos hc]
    exact pyWrite_in_bounds W H g y x c hg hc.2.2.1 hc.2.2.2 hc.1 hc.2.1
  · rw [if_neg hc, clipWrite_out W H g y x c hc]
    rfl

/-- A write guarded on the column only, on a row already known to be in
range, equals the clipped write. -/
theorem guarded_write_step_x (W H : Int) (g : Grid) (y x : Int) (c : String)
    (hg : gridOK W H g) (hy0 : 0 ≤ y) (hyH : y < H) :
    (if 0 ≤ x ∧ x < W then pyWrite g y x c else pure g) =
      some (clipWrite W H g y x c) := by
  by_cases hc : 0 ≤ x ∧ x < W
  · rw [if_pos hc]
    exact pyWrite_in_bounds W H g y x c hg hy0 hyH hc.1 hc.2
  · rw [if_neg hc, clipWrite_out W H g y x c (fun hcc => hc ⟨hcc.1, hcc.2.1⟩)]
    rfl

/-- The title loop of `render` equals its clipped mirror on a
well-shaped canvas with at least one row. -/
theorem drawTitle_eq (W H : Int) (title : String) (g : Grid)
    (hg : gridOK W H g) (hH : 0 < H) :
    drawTitle W title g = some (drawTitleClip W H title g) ∧
      gridOK W H (drawTitleClip W H title g) := by
  unfold drawTitle drawTitleClip
  dsimp only
  refine foldlM_eq_foldl_of (gridOK W H) _ _ _ g hg ?_
  intro p _ g' hg'
  dsimp only
  exact ⟨guarded_write_step_x W H g' 0 _ _ hg' le_rfl hH,
    clipWrite_gridOK W H g' 0 _ _ hg'⟩

/-- One connection segment equals its clipped mirror. -/
theorem drawConnSeg_eq (W H : Int) (style : ConnStyle) (arrow : String) (last : Bool)
    (seg : (Int × Int) × Int × Int) (g : Grid) (hg : gridOK W H g) :
    drawConnSeg W H style arrow last seg g =
      some (drawConnSegClip W H style arrow last seg g) ∧
      gridOK W H (drawConnSegClip W H style arrow last seg g) := by
  unfold drawConnSeg drawConnSegClip
  by_cases h1 : seg.1.1 = seg.2.1
  · rw [if_pos h1, if_pos h1]
    refine foldlM_eq_foldl_of (gridOK W H) _ _ _ g hg ?_
    intro y _ g' hg'
    dsimp only
    by_cases ha : y = seg.2.2 - 1 ∧ last = true
    · rw [if_pos ha, if_pos ha]
      exact ⟨guarded_write_step W H g' y seg.1.1 "v" hg',
        clipWrite_gridOK W H g' y seg.1.1 "v" hg'⟩
    · rw [if_neg ha, if_neg ha]
      exact ⟨guarded_write_step W H g' y seg.1.1 style.vertical hg',
        clipWrite_gridOK W H g' y seg.1.1 style.vertical hg'⟩
  · rw [if_neg h1, if_neg h1]
    by_cases h2 : seg.1.2 = seg.2.2
    · rw [if_pos h2, if_pos h2]
      refine foldlM_eq_foldl_of (gridOK W H) _ _ _ g hg ?_
      intro x _ g' hg'
      dsimp only
      by_cases ha : x = seg.2.1 - 1 ∧ last = true
      · rw [if_pos ha, if_pos ha]
        exact ⟨guarded_write_step W H g' seg.1.2 x arrow hg',
          clipWrite_gridOK W H g' seg.1.2 x arrow hg'⟩
      · rw [if_neg ha, if_neg ha]
        exact ⟨guarded_write_step W H g' seg.1.2 x style.horizontal hg',
          clipWrite_gridOK W H g' seg.1.2 x style.horizontal hg'⟩
    · rw [if_neg h2, if_neg h2]
      exact ⟨rfl, hg⟩

/-- One connection equals its clipped mirror: the segment loop is fully
guarded, the label row guard matches the clip of every label cell. -/
theorem drawConnection_eq (W H : Int) (conn : Conn) (g : Grid) (hg : gridOK W H g) :
    drawConnection W H conn g = some (drawConnectionClip W H conn g) ∧
      gridOK W H (drawConnectionClip W H conn g) := by
  unfold drawConnection drawConnectionClip
  by_cases hlen : conn.path.length < 2
  · rw [if_pos hlen, if_pos hlen]
    exact ⟨rfl, hg⟩
  · rw [if_neg hlen, if_neg hlen]
    dsimp only
    have hseg := foldlM_eq_foldl_of (gridOK W H)
      (fun g s => drawConnSeg W H conn.style conn.arrow
        (decide (s.1 = conn.path.length - 2)) s.2 g)
      (fun g s => drawConnSegClip W H conn.style conn.arrow
        (decide (s.1 = conn.path.length - 2)) s.2 g)
      ((conn.path.zip conn.path.tail).enum) g hg
      (fun s _ g' hg' => drawConnSeg_eq W H conn.style conn.arrow
        (decide (s.1 = conn.path.length - 2)) s.2 g' hg')
    rw [hseg.1]
    simp only [Option.bind_eq_bind, Option.some_bind]
    cases hl : conn.label with
    | none => exact ⟨rfl, hseg.2⟩
    | some lab =>
      dsimp only
      by_cases hne : lab ≠ ""
      · rw [if_pos hne, if_pos hne]
        by_cases hy : 0 ≤ (conn.path.getD (conn.path.length / 2) (0, 0)).2 ∧
            (conn.path.getD (conn.path.length / 2) (0, 0)).2 < H
        · rw [if_pos hy]
          refine foldlM_eq_foldl_of (gridOK W H) _ _ _ _ hseg.2 ?_
          intro p _ g' hg'
          dsimp only
          exact ⟨guarded_write_step_x W H g' _ _ _ hg' hy.1 hy.2,
            clipWrite_gridOK W H g' _ _ _ hg'⟩
        · rw [if_neg hy]
          rw [foldl_fixed_of _ lab.toList.enum _ (fun p _ g' =>
            clipWrite_out W H g' _ _ _ (fun hcc => hy ⟨hcc.2.2.1, hcc.2.2.2⟩))]
          exact ⟨rfl, hseg.2⟩
      · rw [if_neg hne, if_neg hne]
        exact ⟨rfl, hseg.2⟩

/-- One node box equals its clipped mirror.  The borders are fully
guarded in the Python code; the interior text guard lacks a lower bound
on the column, which `0 ≤ node.x` (true after layout) makes redundant. -/
theorem drawNode_eq (W H : Int) (node : Node) (g : Grid) (hg : gridOK W H g)
    (hx : 0 ≤ node.x) :
    drawNode W H node g = some (drawNodeClip W H node g) ∧
      gridOK W H (drawNodeClip W H node g) := by
  unfold drawNode drawNodeClip
  dsimp only
  have h1 := foldlM_eq_foldl_of (gridOK W H)
    (fun g x => if 0 ≤ x ∧ x < W ∧ 0 ≤ node.y ∧ node.y < H then
        pyWrite g node.y x
          (if x = node.x then node.style.top_left
           else if x = node.x + (node.width : Int) - 1 then node.style.top_right
           else node.style.horizontal)
      else pure g)
    (fun g x => clipWrite W H g node.y x
        (if x = node.x then node.style.top_left
         else if x = node.x + (node.width : Int) - 1 then node.style.top_right
         else node.style.horizontal))
    (intRange node.x (node.x + (node.width : Int))) g hg
    (fun x _ g' hg' => ⟨guarded_write_step W H g' node.y x _ hg',
      clipWrite_gridOK W H g' node.y x _ hg'⟩)
  have h2 := fun g1 hg1 => foldlM_eq_foldl_of (gridOK W H)
    (fun g x => if 0 ≤ x ∧ x < W ∧ 0 ≤ node.y + (node.height : Int) - 1 ∧
          node.y + (node.height : Int) - 1 < H then
        pyWrite g (node.y + (node.height : Int) - 1) x
          (if x = node.x then node.style.bottom_left
           else if x = node.x + (node.width : Int) - 1 then node.style.bottom_right
           else node.style.horizontal)
      else pure g)
    (fun g x => clipWrite W H g (node.y + (node.height : Int) - 1) x
        (if x = node.x then node.style.bottom_left
         else if x = node.x + (node.width : Int) - 1 then node.style.bottom_right
         else node.style.horizontal))
    (intRange node.x (node.x + (node.width : Int))) g1 hg1
    (fun x _ g' hg' =>
      ⟨guarded_write_step W H g' (node.y + (node.height : Int) - 1) x _ hg',
        clipWrite_gridOK W H g' (node.y + (node.height : Int) - 1) x _ hg'⟩)
  have h3 := fun g1 hg1 => foldlM_eq_foldl_of (gridOK W H)
    (fun g y => if 0 ≤ y ∧ y < H then
        (if 0 ≤ node.x ∧ node.x < W then
            pyWrite g y node.x node.style.vertical
          else pure g).bind
          (fun g =>
            if 0 ≤ node.x + (node.width : Int) - 1 ∧
                node.x + (node.width : Int) - 1 < W then
              pyWrite g y (node.x + (node.width : Int) - 1) node.style.vertical
            else pure g)
      else pure g)
    (fun g y => clipWrite W H (clipWrite W H g y node.x node.style.vertical) y
        (node.x + (node.width : Int) - 1) node.style.vertical)
    (intRange (node.y + 1) (node.y + (node.height : Int) - 1)) g1 hg1
    (fun y _ g' hg' => by
      dsimp only
      by_cases hy : 0 ≤ y ∧ y < H
      · rw [if_pos hy]
        have hAok := clipWrite_gridOK W H g' y node.x node.style.vertical hg'
        refine ⟨?_, clipWrite_gridOK W H _ y (node.x + (node.width : Int) - 1)
          node.style.vertical hAok⟩
        rw [guarded_write_step_x W H g' y node.x node.style.vertical hg' hy.1 hy.2]
        simp only [Option.some_bind]
        exact guarded_write_step_x W H (clipWrite W H g' y node.x node.style.vertical) y
          (node.x + (node.width : Int) - 1) node.style.vertical hAok hy.1 hy.2
      · rw [if_neg hy,
          clipWrite_out W H g' y node.x node.style.vertical
            (fun hcc => hy ⟨hcc.2.2.1, hcc.2.2.2⟩),
          clipWrite_out W H g' y (node.x + (node.width : Int) - 1) node.style.vertical
            (fun hcc => hy ⟨hcc.2.2.1, hcc.2.2.2⟩)]
        exact ⟨rfl, hg'⟩)
  have h4 := fun g1 hg1 => foldlM_eq_foldl_of (gridOK W H)
    (fun g li =>
      if 0 ≤ node.y + (node.style.padding : Int) + (li.1 : Int) ∧
          node.y + (node.style.padding : Int) + (li.1 : Int) < H then
        li.2.toList.enum.foldlM (fun g p =>
          if node.x + (node.style.padding : Int) ≤
              node.x + (node.style.padding : Int) + (p.1 : Int) ∧
              node.x + (node.style.padding : Int) + (p.1 : Int) <
                min (node.x + (node.width : Int) - (node.style.padding : Int)) W then
            pyWrite g (node.y + (node.style.padding : Int) + (li.1 : Int))
              (node.x + (node.style.padding : Int) + (p.1 : Int))
              (String.singleton p.2)
          else pure g) g
      else pure g)
    (fun g li =>
      li.2.toList.enum.foldl (fun g p =>
        if node.x + (node.style.padding : Int) + (p.1 : Int) <
            node.x + (node.width : Int) - (node.style.padding : Int) then
          clipWrite W H g (node.y + (node.style.padding : Int) + (li.1 : Int))
            (node.x + (node.style.padding : Int) + (p.1 : Int)) (String.singleton p.2)
        else g) g)
    (getDisplayText node).enum g1 hg1
    (fun li _ g' hg' => by
      dsimp only
      by_cases hy : 0 ≤ node.y + (node.style.padding : Int) + (li.1 : Int) ∧
          node.y + (node.style.padding : Int) + (li.1 : Int) < H
      · rw [if_pos hy]
        refine foldlM_eq_foldl_of (gridOK W H) _ _ li.2.toList.enum g' hg' ?_
        intro p _ g2 hg2
        dsimp only
        by_cases hb : node.x + (node.style.padding : Int) + (p.1 : Int) <
            node.x + (node.width : Int) - (node.style.padding : Int)
        · rw [if_pos hb]
          by_cases hw : node.x + (node.style.padding : Int) + (p.1 : Int) < W
          · rw [if_pos ⟨by omega, lt_min_iff.mpr ⟨hb, hw⟩⟩]
            exact ⟨pyWrite_in_bounds W H g2
                (node.y + (node.style.padding : Int) + (li.1 : Int))
                (node.x + (node.style.padding : Int) + (p.1 : Int))
                (String.singleton p.2) hg2 hy.1 hy.2 (by omega) hw,
              clipWrite_gridOK W H g2 _ _ _ hg2⟩
          · rw [if_neg (fun hcc => hw (lt_of_lt_of_le hcc.2 (min_le_right _ _))),
              clipWrite_out W H g2 _ _ _ (fun hcc => hw hcc.2.1)]
            exact ⟨rfl, hg2⟩
        · rw [if_neg hb,
            if_neg (fun hcc : _ ∧ _ => hb (lt_of_lt_of_le hcc.2 (min_le_left _ _)))]
          exact ⟨rfl, hg2⟩
      · rw [if_neg hy,
          foldl_fixed_of _ li.2.toList.enum g' (fun p _ g2 => by
            by_cases hb : node.x + (node.style.padding : Int) + (p.1 : Int) <
                node.x + (node.width : Int) - (node.style.padding : Int)
            · rw [if_pos hb]
              exact clipWrite_out W H g2 _ _ _ (fun hcc => hy ⟨hcc.2.2.1, hcc.2.2.2⟩)
            · rw [if_neg hb])]
        exact ⟨rfl, hg'⟩)
  rw [h1.1]
  simp only [Option.bind_eq_bind, Option.some_bind]
  have h2' := h2 _ h1.2
  rw [h2'.1]
  simp only [Option.bind_eq_bind, Option.some_bind]
  have h3' := h3 _ h2'.2
  rw [h3'.1]
  simp only [Option.bind_eq_bind, Option.some_bind]
  exact h4 _ h3'.2

/-- In a map with non-duplicated keys, every stored pair is what lookup
returns for its key. -/
theorem lookup_of_mem_nodup {β : Type} {m : List (String × β)} {p : String × β}
    (hnd : (m.map Prod.fst).Nodup) (hp : p ∈ m) : m.lookup p.1 = some p.2 := by
  induction m with
  | nil => cases hp
  | cons q t ih =>
    rw [List.map_cons, List.nodup_cons] at hnd
    rcases List.mem_cons.mp hp with rfl | hp2
    · show List.lookup p.1 (p :: t) = some p.2
      simp [List.lookup]
    · have hne : p.1 ≠ q.1 := by
        intro he
        exact hnd.1 (by
          rw [← he]
          exact List.mem_map_of_mem Prod.fst hp2)
      have hb : (p.1 == q.1) = false := beq_eq_false_iff_ne.mpr hne
      rw [List.lookup, hb]
      exact ih hnd.2 hp2

/-- The whole painting phase equals its clipped mirror whenever the
canvas has at least one row and every node starts at a non-negative
column — both guaranteed by `calculate_layout`. -/
theorem paintPy_eq (w : Workflow) (hH : 0 < w.canvas_height)
    (hx : ∀ p ∈ w.nodes, 0 ≤ p.2.x) :
    paintPy w = some (paintClip w) ∧
      gridOK w.canvas_width w.canvas_height (paintClip w) := by
  have hg0 : gridOK w.canvas_width w.canvas_height
      (blankGrid w.canvas_width w.canvas_height) := by
    constructor
    · exact List.length_replicate _ _
    · intro row hrow
      rw [List.eq_of_mem_replicate hrow]
      exact List.length_replicate _ _
  have ht := drawTitle_eq w.canvas_width w.canvas_height w.title _ hg0 hH
  have hc := foldlM_eq_foldl_of (gridOK w.canvas_width w.canvas_height)
    (fun g c => drawConnection w.canvas_width w.canvas_height c g)
    (fun g c => drawConnectionClip w.canvas_width w.canvas_height c g)
    w.connections _ ht.2
    (fun c _ g' hg' => drawConnection_eq w.canvas_width w.canvas_height c g' hg')
  have hn := foldlM_eq_foldl_of (gridOK w.canvas_width w.canvas_height)
    (fun g p => drawNode w.canvas_width w.canvas_height p.2 g)
    (fun g p => drawNodeClip w.canvas_width w.canvas_height p.2 g)
    w.nodes _ hc.2
    (fun p hp g' hg' => drawNode_eq w.canvas_width w.canvas_height p.2 g' hg' (hx p hp))
  unfold paintPy paintClip
  dsimp only
  rw [ht.1]
  simp only [Option.bind_eq_bind, Option.some_bind]
  rw [hc.1]
  simp only [Option.bind_eq_bind, Option.some_bind]
  exact hn

/-- `render` on a freshly built non-empty workflow: the layout runs and
succeeds, the paint phase succeeds and equals its clipped mirror, and
the result is the serialized clipped canvas. -/
theorem renderM_built (w : Workflow) (hB : Built w) (hne : w.nodes ≠ []) :
    ∃ w', calculateLayout w = some w' ∧
      paintPy w' = some (paintClip w') ∧
      renderM w = some ({ w' with canvas := paintClip w' },
        serializeGrid (paintClip w')) ∧
      gridOK w'.canvas_width w'.canvas_height (paintClip w') ∧
      w'.nodes.map Prod.fst = nodeKeys w ∧
      (∃ hs : Nat, w'.canvas_height = ((hs : Nat) : Int) ∧ 4 ≤ hs) := by
  obtain ⟨w', hcl, _, _, _, hkeys, ⟨hs, hh, hhs⟩, _, _, hxy⟩ :=
    calculateLayout_spec w hB.2 hne
  have hH : 0 < w'.canvas_height := by
    rw [hh]
    omega
  have hndk : (w'.nodes.map Prod.fst).Nodup := by
    rw [hkeys]
    exact hB.2
  have hx : ∀ p ∈ w'.nodes, 0 ≤ p.2.x := fun p hp =>
    (hxy p.1 p.2 (lookup_of_mem_nodup hndk hp)).1
  have hpe := paintPy_eq w' hH hx
  refine ⟨w', hcl, hpe.1, ?_, hpe.2, hkeys, ⟨hs, hh, hhs⟩⟩
  unfold renderM
  rw [if_neg (fun hcc => hne (List.isEmpty_iff.mp hcc))]
  have hce : w.canvas.isEmpty = true := by
    rw [hB.1]
    rfl
  dsimp only
  rw [if_pos hce, hcl]
  simp only [Option.bind_eq_bind, Option.some_bind]
  rw [hpe.1]
  simp only [Option.bind_eq_bind, Option.some_bind]
  rfl

/-- Claim C1: every paint operation during render is bounds-checked per
cell.  A `clipWrite` outside `[0,W)×[0,H)` is not performed at all, an
in-bounds `clipWrite` changes no cell but the addressed one (no
wraparound), and on a built workflow the faithful Python-semantics
render — whose cell writes can raise `IndexError` — equals the render
in which every single write is the silently clipped write, so no write
raises and no out-of-range write happens. -/
theorem C1_clipped_writes (w : Workflow) (hB : Built w) :
    (∀ (W H : Int) (g : Grid) (y x : Int) (c : String),
        ¬(0 ≤ x ∧ x < W ∧ 0 ≤ y ∧ y < H) → clipWrite W H g y x c = g) ∧
    (∀ (W H : Int) (g : Grid) (y x : Int) (c : String) (r k : Nat),
        r ≠ y.toNat ∨ k ≠ x.toNat →
        ((clipWrite W H g y x c).getD r []).getD k "" = (g.getD r []).getD k "") ∧
    renderM w = renderClip w := by
  refine ⟨clipWrite_out, clipWrite_cell_other, ?_⟩
  by_cases hne : w.nodes = []
  · unfold renderM renderClip
    rw [if_pos (List.isEmpty_iff.mpr hne), if_pos (List.isEmpty_iff.mpr hne)]
  · obtain ⟨w', hcl, _, hrend, _, _, _⟩ := renderM_built w hB hne
    rw [hrend]
    unfold renderClip
    rw [if_neg (fun hcc => hne (List.isEmpty_iff.mp hcc))]
    have hce : w.canvas.isEmpty = true := by
      rw [hB.1]
      rfl
    dsimp only
    rw [if_pos hce, hcl]
    simp only [Option.bind_eq_bind, Option.some_bind]
    rfl

/-- Witness for C1_clipped_writes on the concrete workflow `a → b`. -/
theorem C1_witness : Built sampleDag ∧ renderM sampleDag = renderClip sampleDag :=
  ⟨by decide, (C1_clipped_writes sampleDag (by decide)).2.2⟩

/-- Claim C7: on a built workflow whose connections induce a cycle of
any length among existing steps (a closed chain of edges whose
endpoints all name existing steps — `A → B → A` is the two-edge
instance), `render` still terminates without an exception, every
step's box is painted exactly once (the painted node list carries
exactly the step ids, without duplicates), and the ordering pass still
emits a permutation of all step ids — the back-edge is broken
silently. -/
theorem C7_cycle_total (w : Workflow) (hB : Built w)
    (hcyc : ∃ v vs, List.Chain (fun u x => ∃ c ∈ w.connections,
      c.source = u ∧ c.target = x ∧ u ∈ nodeKeys w ∧ x ∈ nodeKeys w)
      v (vs ++ [v])) :
    ∃ w' s, renderM w = some (w', s) ∧
      w'.nodes.map Prod.fst = nodeKeys w ∧
      (w'.nodes.map Prod.fst).Nodup ∧
      (topologicalSort (nodeKeys w) w.connections).Perm (nodeKeys w) := by
  have hne : w.nodes ≠ [] := by
    obtain ⟨v, vs, hch⟩ := hcyc
    cases hvl : vs ++ [v] with
    | nil => exact absurd hvl (by simp)
    | cons b t =>
      rw [hvl] at hch
      cases hch with
      | cons h h' =>
        obtain ⟨c, hc, hsv, htb, hsrc, htgt⟩ := h
        intro hnil
        unfold nodeKeys at hsrc
        rw [hnil] at hsrc
        cases hsrc
  obtain ⟨w', hcl, hpaint, hrend, hgOK, hkeys, _⟩ := renderM_built w hB hne
  refine ⟨{ w' with canvas := paintClip w' }, serializeGrid (paintClip w'), hrend,
    hkeys, hkeys.symm ▸ hB.2,
    topologicalSort_perm (nodeKeys w) w.connections hB.2⟩

/-- Witness for C7_cycle_total on the concrete cyclic workflow
`A → B → A`: the closed chain visits `A`, `B` and returns to `A`. -/
theorem C7_witness :
    Built sampleCycle ∧
    (topologicalSort (nodeKeys sampleCycle) sampleCycle.connections).Perm
      (nodeKeys sampleCycle) :=
  ⟨by decide, by
    obtain ⟨w', s, _, _, _, hperm⟩ := C7_cycle_total sampleCycle (by decide)
      ⟨"A", ["B"], List.Chain.cons (by decide) (List.Chain.cons (by decide) List.Chain.nil)⟩
    exact hperm⟩

theorem lookup_none_of_not_mem_keys {β : Type} {m : List (String × β)} {id : String}
    (h : id ∉ m.map Prod.fst) : m.lookup id = none := by
  cases hl : m.lookup id with
  | none => rfl
  | some b => exact absurd (lookup_some_mem_keys hl) h

/-- The connections of a laid-out workflow are the original ones mapped
through `_route_connections` over the laid-out node map. -/
theorem calculateLayout_connections (w w' : Workflow) (h : calculateLayout w = some w') :
    w'.connections = w.connections.map (fun c =>
      match w'.nodes.lookup c.source, w'.nodes.lookup c.target with
      | some s, some t => { c with path :=
          [ (s.x + ((s.width / 2 : Nat) : Int), s.y + (s.height : Int)),
            (t.x + ((t.width / 2 : Nat) : Int), t.y) ] }
      | _, _ => c) := by
  unfold calculateLayout at h
  by_cases hemp : w.nodes.isEmpty
  · rw [if_pos hemp] at h
    have hw : w' = w := (Option.some.inj h).symm
    rw [hw]
    have hnil : w.nodes = [] := List.isEmpty_iff.mp hemp
    symm
    rw [hnil]
    calc w.connections.map _ = w.connections.map id :=
        List.map_congr_left (fun c _ => rfl)
      _ = w.connections := List.map_id _
  · rw [if_neg hemp] at h
    dsimp only at h
    cases hmw : pyMax ((dimsNodes w).map fun p => p.2.width) with
    | none =>
      rw [hmw] at h
      simp only [Option.bind_eq_bind, Option.none_bind] at h
      exact Option.noConfusion h
    | some mw =>
      rw [hmw] at h
      simp only [Option.bind_eq_bind, Option.some_bind] at h
      cases hfold : (levelsOf (nodeKeys w) w.connections).foldlM
          (placeLevel (mw + 10)) (dimsNodes w, 2) with
      | none =>
        rw [hfold] at h
        simp only [Option.bind_eq_bind, Option.none_bind] at h
        exact Option.noConfusion h
      | some fin =>
        rw [hfold] at h
        simp only [Option.bind_eq_bind, Option.some_bind] at h
        cases hmx : pyMaxI (fin.1.map fun p => p.2.x + (p.2.width : Int)) with
        | none =>
          rw [hmx] at h
          simp only [Option.bind_eq_bind, Option.none_bind] at h
          exact Option.noConfusion h
        | some mx =>
          rw [hmx] at h
          simp only [Option.bind_eq_bind, Option.some_bind] at h
          have hw : w' = routeConnections { w with
              nodes := fin.1
              canvas_width := max (mx + 5) ((w.title.length : Int) + 4)
              canvas_height := ((fin.2 : Nat) : Int) + 2 } := (Option.some.inj h).symm
          subst hw
          rfl

/-- Claim C8: a built workflow with an edge naming a missing step still
renders without an exception and paints every step's box; every such
dangling edge comes out of routing with its (empty) path untouched, and
drawing it is a no-op on the canvas. -/
theorem C8_dangling_omitted (w : Workflow) (hB : Built w) (hne : w.nodes ≠ [])
    (hpaths : ∀ c ∈ w.connections, c.path = [])
    (hdang : ∃ c ∈ w.connections, c.source ∉ nodeKeys w ∨ c.target ∉ nodeKeys w) :
    ∃ w' s, renderM w = some (w', s) ∧
      w'.nodes.map Prod.fst = nodeKeys w ∧
      (∃ c' ∈ w'.connections, c'.source ∉ nodeKeys w ∨ c'.target ∉ nodeKeys w) ∧
      (∀ c' ∈ w'.connections, (c'.source ∉ nodeKeys w ∨ c'.target ∉ nodeKeys w) →
        c'.path = [] ∧
        ∀ g, drawConnection w'.canvas_width w'.canvas_height c' g = some g) := by
  obtain ⟨w', hcl, hpaint, hrend, hgOK, hkeys, _⟩ := renderM_built w hB hne
  have hconn := calculateLayout_connections w w' hcl
  refine ⟨{ w' with canvas := paintClip w' }, serializeGrid (paintClip w'), hrend,
    hkeys, ?_, ?_⟩
  · obtain ⟨c, hc, hcd⟩ := hdang
    refine ⟨c, ?_, hcd⟩
    show c ∈ w'.connections
    rw [hconn]
    refine List.mem_map.mpr ⟨c, hc, ?_⟩
    rcases hcd with hd | hd
    · have hls : w'.nodes.lookup c.source = none :=
        lookup_none_of_not_mem_keys (by rw [hkeys]; exact hd)
      rw [hls]
    · have hlt : w'.nodes.lookup c.target = none :=
        lookup_none_of_not_mem_keys (by rw [hkeys]; exact hd)
      cases hls : w'.nodes.lookup c.source with
      | none => rfl
      | some s => rw [hlt]
  · intro c' hc' hdag
    have hc2 : c' ∈ w'.connections := hc'
    rw [hconn] at hc2
    obtain ⟨c, hc, hmap⟩ := List.mem_map.mp hc2
    cases hls : w'.nodes.lookup c.source with
    | some s =>
      cases hlt : w'.nodes.lookup c.target with
      | some t =>
        rw [hls, hlt] at hmap
        exfalso
        have hsrc : c'.source ∈ nodeKeys w := by
          rw [← hmap, ← hkeys]
          exact lookup_some_mem_keys hls
        have htgt : c'.target ∈ nodeKeys w := by
          rw [← hmap, ← hkeys]
          exact lookup_some_mem_keys hlt
        rcases hdag with hd | hd
        · exact hd hsrc
        · exact hd htgt
      | none =>
        rw [hls, hlt] at hmap
        have hcc : c = c' := hmap
        subst hcc
        have hpath : c.path = [] := hpaths c hc
        refine ⟨hpath, ?_⟩
        intro g
        unfold drawConnection
        rw [if_pos (by rw [hpath]; decide)]
        rfl
    | none =>
      rw [hls] at hmap
      have hcc : c = c' := by
        cases hlt : w'.nodes.lookup c.target <;> rw [hlt] at hmap <;> exact hmap
      subst hcc
      have hpath : c.path = [] := hpaths c hc
      refine ⟨hpath, ?_⟩
      intro g
      unfold drawConnection
      rw [if_pos (by rw [hpath]; decide)]
      rfl

/-- Witness for C8_dangling_omitted on the concrete workflow with the
dangling edge `a → ghost`. -/
theorem C8_witness :
    Built sampleDangling ∧ sampleDangling.nodes ≠ [] ∧
    (∀ c ∈ sampleDangling.connections, c.path = []) ∧
    ∃ w' s, renderM sampleDangling = some (w', s) ∧
      w'.nodes.map Prod.fst = nodeKeys sampleDangling :=
  ⟨by decide, by decide, by decide, by
    obtain ⟨w', s, hr, hk, _, _⟩ := C8_dangling_omitted sampleDangling
      (by decide) (by decide) (by decide) (by decide)
    exact ⟨w', s, hr, hk⟩⟩

/-- Claim C9: rendering is deterministic — rendering the workflow a
second time, starting from the state the first `render` returned (no
mutation in between), yields the same output string as the first
render.  Stated at the level of the optional results: following a
render by a second render and keeping the final string gives exactly
the first render's string. -/
theorem C9_deterministic (w : Workflow) (hB : Built w) :
    ((renderM w).bind (fun r => renderM r.1)).map Prod.snd =
      (renderM w).map Prod.snd := by
  by_cases hne : w.nodes = []
  · have h1 : renderM w = some (w, "Empty workflow") := by
      unfold renderM
      rw [if_pos (List.isEmpty_iff.mpr hne)]
    rw [h1]
    simp only [Option.some_bind]
    rw [h1]
  · obtain ⟨w', hcl, hpaint, hrend, hgOK, hkeys, hs, hh, hhs⟩ := renderM_built w hB hne
    have hne2 : ¬(({ w' with canvas := paintClip w' } : Workflow).nodes.isEmpty = true) := by
      intro hcc
      have hnil : w'.nodes = [] := List.isEmpty_iff.mp hcc
      have hkn : nodeKeys w = [] := by
        rw [← hkeys, hnil]
        rfl
      unfold nodeKeys at hkn
      exact hne (List.map_eq_nil_iff.mp hkn)
    have hcne : ¬(({ w' with canvas := paintClip w' } : Workflow).canvas.isEmpty = true) := by
      intro hcc
      have hnil : paintClip w' = [] := List.isEmpty_iff.mp hcc
      have hlen := hgOK.1
      rw [hnil, hh] at hlen
      simp at hlen
      omega
    have h2 : renderM { w' with canvas := paintClip w' } =
        some ({ w' with canvas := paintClip w' }, serializeGrid (paintClip w')) := by
      unfold renderM
      rw [if_neg hne2]
      dsimp only
      rw [if_neg hcne]
      simp only [Option.bind_eq_bind, Option.some_bind]
      have hpp : paintPy { w' with canvas := paintClip w' } = paintPy w' := rfl
      rw [hpp, hpaint]
      simp only [Option.bind_eq_bind, Option.some_bind]
      rfl
    rw [hrend]
    simp only [Option.some_bind]
    rw [h2]

/-- Witness for C9_deterministic on the concrete workflow `a → b`. -/
theorem C9_witness :
    Built sampleDag ∧
    ((renderM sampleDag).bind (fun r => renderM r.1)).map Prod.snd =
      (renderM sampleDag).map Prod.snd :=
  ⟨by decide, C9_deterministic sampleDag (by decide)⟩

end AsciiWorkflow
